import Mathlib

/-!
Verification of the Labyrinth Explorer System.

This file gives a shallow embedding of the three source files of the
repository (betterbst.py, hollows.py, maze.py) and proves or refutes the
frozen claims about them.

Conventions of the embedding:
- Python ints are modelled as Int (capacities, weights, grid coordinates)
  or Nat (lengths, fuel); treasure ratios are modelled as Rat, since the
  source computes value / weight exactly once per treasure and compares.
- Stateful code is modelled by explicit state passing: each mutating
  method returns its result together with the new state.
- Code of the repository that is not under src (the course scaffold:
  data_structures/bst.py, data_structures/heap.py, treasure.py,
  algorithms/mergesort.py, the stack and linked list) is modelled from
  the spec; each such definition carries a doc comment starting with
  "Modelled from the spec:".
-/

/-- Modelled from the spec: treasure.py is not under src.  A Treasure is an
immutable value with a name, a positive weight and a non-negative value
(section 3 of the spec).  The name distinguishes physically distinct
treasures that happen to share weight and value. -/
structure Treasure where
  name : String
  weight : Int
  value : Int
deriving DecidableEq, Repr

/-- Modelled from the spec: the derived ratio value / weight of a treasure
(attribute value_to_weight_ratio of treasure.py, not under src). -/
def value_to_weight_rat (t : Treasure) : Rat :=
  (t.value : Rat) / (t.weight : Rat)

/-- Key and item pair as stored in the BetterBST of a SpookyHollow:
the key is the ratio, the item is the treasure (hollows.py line 96). -/
abbrev RatPair := Rat × Treasure

/-- Modelled from the spec: the node type of the binary search tree of
data_structures/bst.py (not under src).  Key = ratio, item = Treasure,
left and right children (spec section 3, Tree node). -/
inductive BTree where
  | leaf
  | node (left : BTree) (key : Rat) (item : Treasure) (right : BTree)
deriving DecidableEq, Repr

namespace BTree

/-- Modelled from the spec: standard binary-search-tree insertion as used
by BetterBST via the subscript assignment (bst.py is not under src),
preserving the ordering invariant of spec section 3.  On an equal key the
new pair descends to the right: the spec (section 9) leaves the tie-break
for equal keys open and only requires one deterministic rule, so one is
fixed here; every key in the left subtree is strictly below the node key
and every key in the right subtree is at or above it. -/
def insert : BTree → Rat → Treasure → BTree
  | leaf, k, v => node leaf k v leaf
  | node l key item r, k, v =>
      if k < key then node (insert l k v) key item r
      else node l key item (insert r k v)

/-- Ascending in-order traversal of the tree as a list of key and item
pairs, as produced by BSTInOrderIterator (hollows.py line 152 iterates the
tree in order; the iterator itself is modelled from the spec, section 4.2:
a full ascending in-order traversal). -/
def inorder : BTree → List RatPair
  | leaf => []
  | node l k v r => inorder l ++ (k, v) :: inorder r

/-- Height of the tree: 0 for an empty tree, 1 + the larger child height
otherwise (spec section 3: height bound of the bulk build). -/
def height : BTree → Nat
  | leaf => 0
  | node l _ _ r => 1 + max (height l) (height r)

/-- Modelled from the spec: the is_empty method of the tree (bst.py is
not under src; spec section 4.2 lists is_empty as O(1)), used at
hollows.py line 139. -/
def is_empty : BTree → Bool
  | leaf => true
  | node _ _ _ _ => false

/-- Modelled from the spec: get_maximal of bst.py (not under src) locates
the maximum-key node, the rightmost node in the tree (spec section 4.2),
returning its key and item pair. -/
def get_maximal : BTree → Option RatPair
  | leaf => none
  | node _ k v leaf => some (k, v)
  | node _ _ _ (node rl rk rv rr) => get_maximal (node rl rk rv rr)

/-- Modelled from the spec: helper of deletion, the minimum key and item
pair of a tree (leftmost node), used to find the in-order successor. -/
def get_minimal : BTree → Option RatPair
  | leaf => none
  | node leaf k v _ => some (k, v)
  | node (node ll lk lv lr) _ _ _ => get_minimal (node ll lk lv lr)

/-- Modelled from the spec: helper of deletion, removing the leftmost
node of a tree. -/
def delete_min : BTree → BTree
  | leaf => leaf
  | node leaf _ _ r => r
  | node (node ll lk lv lr) k v r => node (delete_min (node ll lk lv lr)) k v r

/-- Modelled from the spec: standard search-tree deletion by key
preserving the ordering invariant (spec section 4.2), as performed by the
subscript del of bst.py (not under src): search for the key by
comparisons; a node with at most one child is replaced by that child, a
node with two children is replaced by its in-order successor (the minimal
node of the right subtree).  A key absent from the tree leaves it
unchanged; in every verified use the key is present. -/
def delete : BTree → Rat → BTree
  | leaf, _ => leaf
  | node l key item r, k =>
      if k < key then node (delete l k) key item r
      else if key < k then node l key item (delete r k)
      else
        match l, r with
        | leaf, _ => r
        | node ll lk lv lr, leaf => node ll lk lv lr
        | node ll lk lv lr, node rl rk rv rr =>
            match get_minimal (node rl rk rv rr) with
            | none => node ll lk lv lr
            | some (sk, sv) =>
                node (node ll lk lv lr) sk sv (delete_min (node rl rk rv rr))

end BTree

/-- Default key and item pair used by positional lookups whose index is
always in range (the list getD below never actually falls back to it). -/
def ratPairDefault : RatPair := (0, ⟨"", 1, 0⟩)

/-- Modelled from the spec: the merge step of algorithms/mergesort.py
(not under src), a true stable merge by ascending key: on equal keys the
element of the left list is emitted first (spec section 4.1 requires a
true stable sort). -/
def merge_pairs : List RatPair → List RatPair → List RatPair
  | [], ys => ys
  | x :: xs, [] => x :: xs
  | x :: xs, y :: ys =>
      if x.1 ≤ y.1 then x :: merge_pairs xs (y :: ys)
      else y :: merge_pairs (x :: xs) ys
termination_by xs ys => xs.length + ys.length

/-- Modelled from the spec: mergesort of algorithms/mergesort.py (not
under src) with sort_key the first component, as called by
BetterBST.__sort_elements (betterbst.py line 62): split in half, sort the
halves, stable-merge them. -/
def mergesort : List RatPair → List RatPair
  | [] => []
  | [x] => [x]
  | a :: b :: rest =>
      let l := a :: b :: rest
      merge_pairs (mergesort (l.take (l.length / 2)))
        (mergesort (l.drop (l.length / 2)))
termination_by l => l.length
decreasing_by
  · simp [List.length_take]; omega
  · simp [List.length_drop]; omega

/-- The midpoint recursion of BetterBST._build_balanced_tree_aux
(betterbst.py lines 93-103) over a sublist of the sorted element list.
The source works with index bounds into the full list; the sublist between
the bounds is passed here instead, with the same midpoint: for a range
with b ≤ e and n = e - b + 1 elements, (b + e) / 2 - b = (n - 1) / 2.
Each visited midpoint element is inserted into the growing tree (the
source inserts through insert_aux for the root and through the subscript
assignment afterwards; both are the same search-tree insertion), then the
left half before the midpoint and the right half after it are processed
recursively, in that order. -/
def build_balanced_tree_aux (l : List RatPair) (t : BTree) : BTree :=
  if h : l = [] then t
  else
    BTree.insert t (l.getD ((l.length - 1) / 2) ratPairDefault).1
        (l.getD ((l.length - 1) / 2) ratPairDefault).2
      |> build_balanced_tree_aux (l.take ((l.length - 1) / 2))
      |> build_balanced_tree_aux (l.drop ((l.length - 1) / 2 + 1))
termination_by l.length
decreasing_by
  · simp [List.length_take]
    cases l with
    | nil => exact absurd rfl h
    | cons a as => simp; omega
  · simp [List.length_drop]
    cases l with
    | nil => exact absurd rfl h
    | cons a as => simp

/-- The tree built by BetterBST.__init__ (betterbst.py lines 13-38):
stable-sort the elements by key, then run the midpoint recursion over the
whole sorted list starting from an empty tree. -/
def betterBST (elements : List RatPair) : BTree :=
  build_balanced_tree_aux (mergesort elements) BTree.leaf

/-- Direct midpoint construction over a sorted list: the tree whose root
is the middle element and whose children are built recursively from the
halves (the procedure as described in spec section 4.1).  Used as the
specification against which build_balanced_tree_aux is compared. -/
def midTree : List RatPair → BTree
  | [] => BTree.leaf
  | a :: rest =>
      let l := a :: rest
      BTree.node (midTree (l.take ((l.length - 1) / 2)))
        (l.getD ((l.length - 1) / 2) ratPairDefault).1
        (l.getD ((l.length - 1) / 2) ratPairDefault).2
        (midTree (l.drop ((l.length - 1) / 2 + 1)))
termination_by l => l.length
decreasing_by
  · simp [List.length_take]; omega
  · simp [List.length_drop]; omega

/-- SpookyHollow.restructure_hollow (hollows.py lines 69-97): turns the
treasure list into key and item pairs keyed by the ratio and builds a
BetterBST from them. -/
def spooky_restructure_hollow (treasures : List Treasure) : BTree :=
  betterBST (treasures.map (fun t => (value_to_weight_rat t, t)))

/-- SpookyHollow.get_optimal_treasure (hollows.py lines 99-175), returning
the result together with the new store.  On an empty store: none.  The
maximal-ratio node is probed first; if its item fits the capacity it is
deleted by key and returned.  Otherwise the ascending in-order pairs are
pushed one by one onto a stack and popped back into a list (the loops at
lines 152-161), which reverses them into descending ratio order; the first
pair whose treasure fits is chosen (the loop at lines 163-168 with break),
its key is deleted and its treasure returned; if none fits, none. -/
def spooky_get_optimal_treasure (t : BTree) (backpack_capacity : Int) :
    Option Treasure × BTree :=
  if t.is_empty then (none, t)
  else
    match t.get_maximal with
    | none => (none, t)
    | some (bk, bv) =>
        if bv.weight ≤ backpack_capacity then (some bv, t.delete bk)
        else
          let stacked := t.inorder.foldl (fun s x => x :: s) []
          match stacked.find? (fun p => p.2.weight ≤ backpack_capacity) with
          | none => (none, t)
          | some (rk, rt) => (some rt, t.delete rk)

/-- Modelled from the spec: MaxHeap.get_max of data_structures/heap.py
(not under src) removes and returns the maximum element of the heap, the
maximum taken by the treasure ordering, which is the ratio (spec section
4.3: pop the maximum element).  The heap content is modelled as the list
of its elements; the pair returned is the maximum together with the
remaining elements.  Among elements of equal ratio the earliest is kept:
the spec leaves the tie-break open and requires one deterministic rule. -/
def get_max_split : List Treasure → Option (Treasure × List Treasure)
  | [] => none
  | t :: ts =>
      match get_max_split ts with
      | none => some (t, [])
      | some (m, rest) =>
          if value_to_weight_rat t < value_to_weight_rat m then some (m, t :: rest)
          else some (t, ts)

/-- Modelled from the spec: MaxHeap.add of data_structures/heap.py (not
under src) inserts one element into the heap; on the list model an
insertion anywhere represents it, since only the element multiset of the
heap is observable through get_max. -/
def heap_add (heap : List Treasure) (t : Treasure) : List Treasure :=
  t :: heap

/-- While loop of MysticalHollow.get_optimal_treasure (hollows.py lines
260-266): pop the maximum; if it fits the capacity stop with it as the
chosen treasure, else append it to the temporary linked list buffer and
continue until the heap is exhausted.  The fuel argument only bounds the
recursion; it is called with the heap length, which always suffices since
every iteration removes one element. -/
def mystical_loop (fuel : Nat) (heap : List Treasure) (backpack_capacity : Int)
    (buffer : List Treasure) : Option Treasure × List Treasure × List Treasure :=
  match fuel with
  | 0 => (none, heap, buffer)
  | f + 1 =>
      match get_max_split heap with
      | none => (none, [], buffer)
      | some (t, rest) =>
          if t.weight ≤ backpack_capacity then (some t, rest, buffer)
          else mystical_loop f rest backpack_capacity (buffer ++ [t])

/-- State of a MysticalHollow: the treasures attribute set by __init__
(hollows.py line 37) and the heap attribute set by restructure_hollow
(line 212); the two are distinct attributes in the source. -/
structure MysticalHollowState where
  treasures : List Treasure
  heap : List Treasure
deriving DecidableEq, Repr

/-- MysticalHollow.restructure_hollow (hollows.py lines 186-213): builds a
MaxHeap over the treasures via heapify and stores it in the heap
attribute; the treasures attribute is not reassigned.  heapify is
modelled from the spec (heap.py is not under src): a heap holding exactly
the treasure list's elements. -/
def mystical_restructure_hollow (st : MysticalHollowState) : MysticalHollowState :=
  { st with heap := st.treasures }

/-- Hollow.__init__ (hollows.py lines 36-38) for a MysticalHollow: store
the generated treasures, then restructure. -/
def mystical_hollow_init (gen : List Treasure) : MysticalHollowState :=
  mystical_restructure_hollow { treasures := gen, heap := [] }

/-- Hollow.__len__ (hollows.py lines 59-64): the length of the treasures
attribute. -/
def hollow_len (st : MysticalHollowState) : Nat :=
  st.treasures.length

/-- MysticalHollow.get_optimal_treasure (hollows.py lines 215-273),
returning the result together with the new state.  The guard at line 254
compares the MaxHeap object itself with the int 0, which in Python is
always False for a MaxHeap, so it never returns early and adds nothing to
the embedding.  After the pop loop every buffered infeasible element is
added back into the heap (lines 268-269). -/
def mystical_get_optimal_treasure (st : MysticalHollowState) (backpack_capacity : Int) :
    Option Treasure × MysticalHollowState :=
  let r := mystical_loop st.heap.length st.heap backpack_capacity []
  let heap2 := r.2.2.foldl (fun h t => heap_add h t) r.2.1
  (r.1, { st with heap := heap2 })

/-- Sequence of results of repeated SpookyHollow extractions for a given
sequence of capacities, threading the store state. -/
def spooky_run : BTree → List Int → List (Option Treasure)
  | _, [] => []
  | t, c :: cs =>
      let r := spooky_get_optimal_treasure t c
      r.1 :: spooky_run r.2 cs

/-- Sequence of results of repeated MysticalHollow extractions for a given
sequence of capacities, threading the hollow state. -/
def mystical_run : MysticalHollowState → List Int → List (Option Treasure)
  | _, [] => []
  | st, c :: cs =>
      let r := mystical_get_optimal_treasure st c
      r.1 :: mystical_run r.2 cs

/-- Maze cell position (maze.py lines 12-29): integer row and column with
equality by field comparison. -/
structure Position where
  row : Int
  col : Int
deriving DecidableEq, Repr

/-- Tile of a maze cell as relevant to the pathfinder: a wall, an exit, or
any passable non-exit tile (blank, start, or a hollow-bearing tile; the
pathfinder treats all of those alike). -/
inductive Tile where
  | blank
  | wall
  | exit
deriving DecidableEq, Repr

/-- The maze grid (maze.py lines 53-100): dimensions, start position, and
the tile of each cell; the grid list of lists is modelled as the function
from positions to tiles it represents. -/
structure Maze where
  rows : Int
  cols : Int
  start_position : Position
  tileAt : Position → Tile

/-- Bounds check of Maze.is_valid_position (maze.py line 211). -/
def in_bounds (m : Maze) (p : Position) : Bool :=
  decide (0 ≤ p.row) && decide (p.row < m.rows) &&
    decide (0 ≤ p.col) && decide (p.col < m.cols)

/-- Maze.is_valid_position (maze.py lines 190-220): inside the maze, not a
wall, and not visited.  The mutable visited flags of the grid cells are
modelled as the list of visited positions. -/
def is_valid_position (m : Maze) (vis : List Position) (p : Position) : Bool :=
  if !(in_bounds m p) then false
  else if (m.tileAt p == Tile.wall) || vis.contains p then false
  else true

/-- Neighbour offsets of Maze.get_available_positions (maze.py line 242),
in source order: up, down, left, right. -/
def exit_postions : List (Int × Int) :=
  [(-1, 0), (1, 0), (0, -1), (0, 1)]

/-- Maze.get_available_positions (maze.py lines 222-251): the four
orthogonal neighbours, filtered by is_valid_position, in offset order. -/
def get_available_positions (m : Maze) (vis : List Position) (current : Position) :
    List Position :=
  (exit_postions.map (fun d => Position.mk (current.row + d.1) (current.col + d.2))).filter
    (fun p => is_valid_position m vis p)

mutual
/-- Inner depth_first_search of Maze.find_way_out (maze.py lines 279-294):
mark the position visited and append it to the path; succeed on an exit
tile; otherwise recurse through the available-position list computed once
on entry.  The shared mutable path is modelled by returning the path
suffix from this position on (some suffix on success, none on failure,
matching the append before recursion and the pop on failure); the visited
flags are threaded as the visited list.  The fuel only bounds recursion
depth; find_way_out passes fuel that never runs out (a sufficiency theorem
below), and exhausted fuel is reported as the outer none. -/
def depth_first_search (m : Maze) (fuel : Nat) (pos : Position)
    (vis : List Position) : Option (Option (List Position) × List Position) :=
  match fuel with
  | 0 => none
  | f + 1 =>
      if m.tileAt pos = Tile.exit then some (some [pos], pos :: vis)
      else
        match dfs_children m f (get_available_positions m (pos :: vis) pos) (pos :: vis) with
        | none => none
        | some (some suffix, vis2) => some (some (pos :: suffix), vis2)
        | some (none, vis2) => some (none, vis2)
termination_by (fuel, 0)

/-- For loop over the available positions inside depth_first_search
(maze.py lines 289-291): try each candidate in order, short-circuiting on
the first success and threading the visited list through failures. -/
def dfs_children (m : Maze) (fuel : Nat) (cs : List Position)
    (vis : List Position) : Option (Option (List Position) × List Position) :=
  match cs with
  | [] => some (none, vis)
  | c :: rest =>
      match depth_first_search m fuel c vis with
      | none => none
      | some (some suffix, vis2) => some (some suffix, vis2)
      | some (none, vis2) => dfs_children m fuel rest vis2
termination_by (fuel, cs.length + 1)
end

/-- All in-bounds positions of the maze grid. -/
def all_positions (m : Maze) : List Position :=
  (List.range m.rows.toNat).flatMap (fun i =>
    (List.range m.cols.toNat).map (fun j => Position.mk (Int.ofNat i) (Int.ofNat j)))

/-- Maze.find_way_out (maze.py lines 253-299): run the depth-first search
from the start position with all cells unvisited; on success the
accumulated path from start to exit, otherwise none. -/
def find_way_out (m : Maze) : Option (List Position) :=
  match depth_first_search m ((all_positions m).length + 2) m.start_position [] with
  | some (some path, _) => some path
  | _ => none

/-- Reachability through passable cells as explored by the depth-first
search: the start position is reached, and from a reached cell every
in-bounds non-wall orthogonal neighbour is reached. -/
inductive Reach (m : Maze) : Position → Prop
  | start : Reach m m.start_position
  | step {p q : Position} : Reach m p →
      (∃ d ∈ exit_postions, q = Position.mk (p.row + d.1) (p.col + d.2)) →
      in_bounds m q = true → m.tileAt q ≠ Tile.wall → Reach m q

/-- Tile of a harvested maze cell: terrain, a SpookyHollow identified by
the index of its exclusively owned store, or the shared MysticalHollow
(load_maze_from_file creates one MysticalHollow shared by every mystical
cell and a fresh SpookyHollow per spooky cell, maze.py lines 169-186). -/
inductive CellTile where
  | terrain (s : String)
  | spookyHollow (id : Nat)
  | mysticalHollow
deriving DecidableEq

/-- MazeCell (maze.py lines 32-42) as consumed by take_treasures: the tile
and the position. -/
structure MazeCell where
  tile : CellTile
  position : Position

/-- Store state visible to the harvester: the tree of each SpookyHollow
and the single shared MysticalHollow. -/
structure HarvestState where
  spookyStores : Nat → BTree
  mystical : MysticalHollowState

/-- Loop of Maze.take_treasures (maze.py lines 337-351): for each cell in
path order, if its tile is a hollow, extract with the current remaining
capacity; on a returned treasure subtract its weight from the capacity and
append it to the collected list.  The two isinstance branches of the
source are mutually exclusive and appear here as one case split. -/
def take_treasures_go (st : HarvestState) (path : List MazeCell)
    (backpack_capacity : Int) (collected : List Treasure) :
    List Treasure × HarvestState :=
  match path with
  | [] => (collected, st)
  | cell :: rest =>
      match cell.tile with
      | CellTile.terrain _ => take_treasures_go st rest backpack_capacity collected
      | CellTile.spookyHollow i =>
          let r := spooky_get_optimal_treasure (st.spookyStores i) backpack_capacity
          let st2 : HarvestState :=
            { st with spookyStores := fun j => if j = i then r.2 else st.spookyStores j }
          match r.1 with
          | some tr =>
              take_treasures_go st2 rest (backpack_capacity - tr.weight) (collected ++ [tr])
          | none => take_treasures_go st2 rest backpack_capacity collected
      | CellTile.mysticalHollow =>
          let r := mystical_get_optimal_treasure st.mystical backpack_capacity
          let st2 : HarvestState := { st with mystical := r.2 }
          match r.1 with
          | some tr =>
              take_treasures_go st2 rest (backpack_capacity - tr.weight) (collected ++ [tr])
          | none => take_treasures_go st2 rest backpack_capacity collected

/-- Maze.take_treasures (maze.py lines 301-356): run the loop with an
empty collected list; return none when nothing was collected, the
collected list otherwise, together with the final store state. -/
def take_treasures (st : HarvestState) (path : List MazeCell)
    (backpack_capacity : Int) : Option (List Treasure) × HarvestState :=
  let r := take_treasures_go st path backpack_capacity []
  (if r.1 = [] then none else some r.1, r.2)

/-- One step of the specification fold of spec section 4.5: state is the
accumulated treasure list, the remaining capacity and the store state; at
a hollow-bearing cell call that hollow's extraction with the remaining
capacity, and on a returned treasure append it and subtract its weight
before the next cell. -/
def harvest_step (acc : List Treasure × Int × HarvestState) (cell : MazeCell) :
    List Treasure × Int × HarvestState :=
  match cell.tile with
  | CellTile.terrain _ => acc
  | CellTile.spookyHollow i =>
      let r := spooky_get_optimal_treasure (acc.2.2.spookyStores i) acc.2.1
      let st2 : HarvestState :=
        { acc.2.2 with spookyStores := fun j => if j = i then r.2 else acc.2.2.spookyStores j }
      match r.1 with
      | some tr => (acc.1 ++ [tr], acc.2.1 - tr.weight, st2)
      | none => (acc.1, acc.2.1, st2)
  | CellTile.mysticalHollow =>
      let r := mystical_get_optimal_treasure acc.2.2.mystical acc.2.1
      let st2 : HarvestState := { acc.2.2 with mystical := r.2 }
      match r.1 with
      | some tr => (acc.1 ++ [tr], acc.2.1 - tr.weight, st2)
      | none => (acc.1, acc.2.1, st2)

/-- Left fold formulation of the harvester, worded from the spec (section
4.5): fold harvest_step over the cells in path order starting from the
empty accumulated list and the starting capacity; the final result is the
accumulated list, or none when that list is empty. -/
def take_treasures_spec (st : HarvestState) (path : List MazeCell)
    (backpack_capacity : Int) : Option (List Treasure) × HarvestState :=
  let r := path.foldl harvest_step ([], backpack_capacity, st)
  (if r.1 = [] then none else some r.1, r.2.2)

/-- Dynamic view of one element of the path argument of take_treasures: in
Python the value is either a Position, as produced by find_way_out, or a
MazeCell, as the signature of take_treasures declares.  Accessing the tile
attribute of a Position raises AttributeError. -/
inductive PathElem where
  | positionElem (p : Position)
  | cellElem (c : MazeCell)

/-- Maze.take_treasures run on dynamically typed path elements: each
iteration reads the tile attribute of the element (the isinstance tests at
maze.py lines 339 and 346 evaluate cell.tile), which on a Position raises
AttributeError, modelled as an error result that aborts the walk. -/
def take_treasures_dyn_go (st : HarvestState) (path : List PathElem)
    (backpack_capacity : Int) (collected : List Treasure) :
    Except Unit (List Treasure × HarvestState) :=
  match path with
  | [] => Except.ok (collected, st)
  | PathElem.positionElem _ :: _ => Except.error ()
  | PathElem.cellElem cell :: rest =>
      match cell.tile with
      | CellTile.terrain _ => take_treasures_dyn_go st rest backpack_capacity collected
      | CellTile.spookyHollow i =>
          let r := spooky_get_optimal_treasure (st.spookyStores i) backpack_capacity
          let st2 : HarvestState :=
            { st with spookyStores := fun j => if j = i then r.2 else st.spookyStores j }
          match r.1 with
          | some tr =>
              take_treasures_dyn_go st2 rest (backpack_capacity - tr.weight) (collected ++ [tr])
          | none => take_treasures_dyn_go st2 rest backpack_capacity collected
      | CellTile.mysticalHollow =>
          let r := mystical_get_optimal_treasure st.mystical backpack_capacity
          let st2 : HarvestState := { st with mystical := r.2 }
          match r.1 with
          | some tr =>
              take_treasures_dyn_go st2 rest (backpack_capacity - tr.weight) (collected ++ [tr])
          | none => take_treasures_dyn_go st2 rest backpack_capacity collected

/-- Maze.take_treasures applied to dynamically typed path elements, as in
the composition with find_way_out. -/
def take_treasures_dyn (st : HarvestState) (path : List PathElem)
    (backpack_capacity : Int) : Except Unit (Option (List Treasure) × HarvestState) :=
  match take_treasures_dyn_go st path backpack_capacity [] with
  | Except.error e => Except.error e
  | Except.ok r => Except.ok (if r.1 = [] then none else some r.1, r.2)

/-- Treasures stored in a SpookyHollow store, in ascending ratio order. -/
def treasures_of (t : BTree) : List Treasure :=
  t.inorder.map Prod.snd

/-- Keys (ratios) stored in a SpookyHollow store, in ascending order. -/
def keys_of (t : BTree) : List Rat :=
  t.inorder.map Prod.fst

/-- Key and item pairs weakly sorted ascending by key. -/
def sorted_by_key (l : List RatPair) : Prop :=
  List.Pairwise (fun p q : RatPair => p.1 ≤ q.1) l

/-- Key and item pairs strictly sorted ascending by key. -/
def strict_by_key (l : List RatPair) : Prop :=
  List.Pairwise (fun p q : RatPair => p.1 < q.1) l

instance (l : List RatPair) : Decidable (sorted_by_key l) := by
  rw [sorted_by_key]
  infer_instance

instance (l : List RatPair) : Decidable (strict_by_key l) := by
  rw [strict_by_key]
  infer_instance

/-- One step of a maze path as walked by the depth-first search: the
second position is an orthogonal neighbour of the first, in bounds and not
a wall. -/
def adj_step (m : Maze) (p q : Position) : Prop :=
  (∃ d ∈ exit_postions, q = Position.mk (p.row + d.1) (p.col + d.2)) ∧
    in_bounds m q = true ∧ m.tileAt q ≠ Tile.wall

/-- Count of in-bounds cells not yet visited; the variant that bounds the
depth of the search. -/
def unvis (m : Maze) (vis : List Position) : Nat :=
  ((all_positions m).filter (fun p => decide (p ∉ vis))).length

/-- Closure property of a failed search: a processed cell is not an exit
and all its passable neighbours have been visited. -/
def dfs_closed (m : Maze) (vis2 : List Position) (q : Position) : Prop :=
  m.tileAt q ≠ Tile.exit ∧
    ∀ d ∈ exit_postions,
      in_bounds m (Position.mk (q.row + d.1) (q.col + d.2)) = true →
      m.tileAt (Position.mk (q.row + d.1) (q.col + d.2)) ≠ Tile.wall →
      Position.mk (q.row + d.1) (q.col + d.2) ∈ vis2

theorem foldl_cons_eq_reverse_append {α : Type} (l acc : List α) :
    l.foldl (fun s x => x :: s) acc = l.reverse ++ acc := by
  induction l generalizing acc with
  | nil => simp
  | cons a as ih => simp [List.foldl_cons, ih]

theorem merge_pairs_perm (xs ys : List RatPair) :
    (merge_pairs xs ys).Perm (xs ++ ys) := by
  induction xs, ys using merge_pairs.induct with
  | case1 ys => simp [merge_pairs]
  | case2 x xs => simp [merge_pairs]
  | case3 x xs y ys h ih =>
      simp only [merge_pairs, if_pos h]
      exact ih.cons x
  | case4 x xs y ys h ih =>
      simp only [merge_pairs, if_neg h]
      exact (ih.cons y).trans List.perm_middle.symm

theorem mem_merge_pairs {z : RatPair} {xs ys : List RatPair} :
    z ∈ merge_pairs xs ys ↔ z ∈ xs ∨ z ∈ ys := by
  rw [(merge_pairs_perm xs ys).mem_iff, List.mem_append]

theorem merge_pairs_sorted {xs ys : List RatPair} (hx : sorted_by_key xs)
    (hy : sorted_by_key ys) : sorted_by_key (merge_pairs xs ys) := by
  induction xs, ys using merge_pairs.induct with
  | case1 ys => simpa [merge_pairs] using hy
  | case2 x xs => simpa [merge_pairs] using hx
  | case3 x xs y ys h ih =>
      simp only [merge_pairs, if_pos h]
      rw [sorted_by_key, List.pairwise_cons]
      refine ⟨?_, ih (List.Pairwise.of_cons hx) hy⟩
      intro z hz
      rcases mem_merge_pairs.mp hz with hz | hz
      · exact (List.pairwise_cons.mp hx).1 z hz
      · rcases List.mem_cons.mp hz with rfl | hz
        · exact h
        · exact le_trans h ((List.pairwise_cons.mp hy).1 z hz)
  | case4 x xs y ys h ih =>
      simp only [merge_pairs, if_neg h]
      rw [sorted_by_key, List.pairwise_cons]
      refine ⟨?_, ih hx (List.Pairwise.of_cons hy)⟩
      intro z hz
      have hyx : y.1 ≤ x.1 := le_of_not_le h
      rcases mem_merge_pairs.mp hz with hz | hz
      · rcases List.mem_cons.mp hz with rfl | hz
        · exact hyx
        · exact le_trans hyx ((List.pairwise_cons.mp hx).1 z hz)
      · exact (List.pairwise_cons.mp hy).1 z hz

theorem mergesort_perm (l : List RatPair) : (mergesort l).Perm l := by
  induction l using mergesort.induct with
  | case1 => simp [mergesort]
  | case2 x => simp [mergesort]
  | case3 a b rest l ih1 ih2 =>
      simp only [mergesort]
      refine (merge_pairs_perm _ _).trans ?_
      refine ((ih1.append ih2).trans ?_)
      rw [List.take_append_drop]

theorem mergesort_sorted (l : List RatPair) : sorted_by_key (mergesort l) := by
  induction l using mergesort.induct with
  | case1 => simp [mergesort, sorted_by_key]
  | case2 x => simp [mergesort, sorted_by_key]
  | case3 a b rest l ih1 ih2 =>
      simp only [mergesort]
      exact merge_pairs_sorted ih1 ih2

theorem mergesort_length (l : List RatPair) : (mergesort l).length = l.length :=
  (mergesort_perm l).length_eq

theorem build_aux_nil (t : BTree) : build_balanced_tree_aux [] t = t := by
  rw [build_balanced_tree_aux]
  simp

theorem build_aux_eq {l : List RatPair} (t : BTree) (h : l ≠ []) :
    build_balanced_tree_aux l t =
      build_balanced_tree_aux (l.drop ((l.length - 1) / 2 + 1))
        (build_balanced_tree_aux (l.take ((l.length - 1) / 2))
          (BTree.insert t (l.getD ((l.length - 1) / 2) ratPairDefault).1
            (l.getD ((l.length - 1) / 2) ratPairDefault).2)) := by
  rw [build_balanced_tree_aux, dif_neg h]

theorem midTree_eq {l : List RatPair} (h : l ≠ []) :
    midTree l =
      BTree.node (midTree (l.take ((l.length - 1) / 2)))
        (l.getD ((l.length - 1) / 2) ratPairDefault).1
        (l.getD ((l.length - 1) / 2) ratPairDefault).2
        (midTree (l.drop ((l.length - 1) / 2 + 1))) := by
  match l with
  | [] => exact absurd rfl h
  | a :: rest => rw [midTree]

theorem mid_index_lt {l : List RatPair} (h : l ≠ []) :
    (l.length - 1) / 2 < l.length := by
  have : 0 < l.length := List.length_pos.mpr h
  omega

theorem getD_mid_mem {l : List RatPair} (h : l ≠ []) :
    l.getD ((l.length - 1) / 2) ratPairDefault ∈ l := by
  rw [List.getD_eq_getElem _ _ (mid_index_lt h)]
  exact List.getElem_mem _

theorem build_aux_all_lt_n (n : Nat) : ∀ l : List RatPair, l.length ≤ n →
    ∀ (a : BTree) (k : Rat) (v : Treasure) (b : BTree), (∀ p ∈ l, p.1 < k) →
    build_balanced_tree_aux l (BTree.node a k v b) =
      BTree.node (build_balanced_tree_aux l a) k v b := by
  induction n with
  | zero =>
      intro l hl a k v b _
      have : l = [] := List.eq_nil_of_length_eq_zero (Nat.le_zero.mp hl)
      subst this
      rw [build_aux_nil, build_aux_nil]
  | succ n ih =>
      intro l hl a k v b hk
      by_cases hnil : l = []
      · subst hnil
        rw [build_aux_nil, build_aux_nil]
      · have hmid := mid_index_lt hnil
        have hmem := getD_mid_mem hnil
        have hkey : (l.getD ((l.length - 1) / 2) ratPairDefault).1 < k := hk _ hmem
        rw [build_aux_eq _ hnil, build_aux_eq _ hnil]
        rw [BTree.insert, if_pos hkey]
        rw [ih (l.take ((l.length - 1) / 2)) (by simp [List.length_take]; omega)
          _ k v b (fun p hp => hk p (List.mem_of_mem_take hp))]
        rw [ih (l.drop ((l.length - 1) / 2 + 1)) (by simp [List.length_drop]; omega)
          _ k v b (fun p hp => hk p (List.mem_of_mem_drop hp))]

theorem build_aux_all_ge_n (n : Nat) : ∀ l : List RatPair, l.length ≤ n →
    ∀ (a : BTree) (k : Rat) (v : Treasure) (b : BTree), (∀ p ∈ l, k < p.1) →
    build_balanced_tree_aux l (BTree.node a k v b) =
      BTree.node a k v (build_balanced_tree_aux l b) := by
  induction n with
  | zero =>
      intro l hl a k v b _
      have : l = [] := List.eq_nil_of_length_eq_zero (Nat.le_zero.mp hl)
      subst this
      rw [build_aux_nil, build_aux_nil]
  | succ n ih =>
      intro l hl a k v b hk
      by_cases hnil : l = []
      · subst hnil
        rw [build_aux_nil, build_aux_nil]
      · have hmid := mid_index_lt hnil
        have hmem := getD_mid_mem hnil
        have hkey : ¬ (l.getD ((l.length - 1) / 2) ratPairDefault).1 < k :=
          not_lt_of_gt (hk _ hmem)
        rw [build_aux_eq _ hnil, build_aux_eq _ hnil]
        rw [BTree.insert, if_neg hkey]
        rw [ih (l.take ((l.length - 1) / 2)) (by simp [List.length_take]; omega)
          a k v _ (fun p hp => hk p (List.mem_of_mem_take hp))]
        rw [ih (l.drop ((l.length - 1) / 2 + 1)) (by simp [List.length_drop]; omega)
          a k v _ (fun p hp => hk p (List.mem_of_mem_drop hp))]

theorem list_mid_decomp {l : List RatPair} (h : l ≠ []) :
    l = l.take ((l.length - 1) / 2) ++
      l.getD ((l.length - 1) / 2) ratPairDefault :: l.drop ((l.length - 1) / 2 + 1) := by
  have hmid := mid_index_lt h
  rw [List.getD_eq_getElem _ _ hmid]
  rw [← List.drop_eq_getElem_cons hmid]
  rw [List.take_append_drop]

theorem build_aux_eq_midTree_n (n : Nat) : ∀ l : List RatPair, l.length ≤ n →
    strict_by_key l → build_balanced_tree_aux l BTree.leaf = midTree l := by
  induction n with
  | zero =>
      intro l hl _
      have : l = [] := List.eq_nil_of_length_eq_zero (Nat.le_zero.mp hl)
      subst this
      rw [build_aux_nil, midTree]
  | succ n ih =>
      intro l hl hs
      by_cases hnil : l = []
      · subst hnil
        rw [build_aux_nil, midTree]
      · have hmid := mid_index_lt hnil
        set md := (l.length - 1) / 2 with hmd
        set x := l.getD md ratPairDefault with hx
        have hdecomp : l = l.take md ++ x :: l.drop (md + 1) := list_mid_decomp hnil
        have hsplit : (∀ p ∈ l.take md, p.1 < x.1) ∧ strict_by_key (l.take md) ∧
            strict_by_key (l.drop (md + 1)) ∧ (∀ p ∈ l.drop (md + 1), x.1 < p.1) := by
          have := hs
          rw [strict_by_key] at this
          rw [hdecomp, List.pairwise_append] at this
          obtain ⟨h1, h2, h3⟩ := this
          rw [List.pairwise_cons] at h2
          exact ⟨fun p hp => h3 p hp x (List.mem_cons_self _ _),
            h1, h2.2, h2.1⟩
        rw [build_aux_eq _ hnil, midTree_eq hnil]
        rw [BTree.insert]
        rw [build_aux_all_lt_n n (l.take md) (by simp [List.length_take]; omega)
          _ _ _ _ hsplit.1]
        rw [build_aux_all_ge_n n (l.drop (md + 1)) (by simp [List.length_drop]; omega)
          _ _ _ _ hsplit.2.2.2]
        rw [ih (l.take md) (by simp [List.length_take]; omega) hsplit.2.1]
        rw [ih (l.drop (md + 1)) (by simp [List.length_drop]; omega) hsplit.2.2.1]

theorem midTree_inorder_n (n : Nat) : ∀ l : List RatPair, l.length ≤ n →
    (midTree l).inorder = l := by
  induction n with
  | zero =>
      intro l hl
      have : l = [] := List.eq_nil_of_length_eq_zero (Nat.le_zero.mp hl)
      subst this
      rw [midTree, BTree.inorder]
  | succ n ih =>
      intro l hl
      by_cases hnil : l = []
      · subst hnil
        rw [midTree, BTree.inorder]
      · have hmid := mid_index_lt hnil
        rw [midTree_eq hnil, BTree.inorder]
        rw [ih (l.take ((l.length - 1) / 2)) (by simp [List.length_take]; omega)]
        rw [ih (l.drop ((l.length - 1) / 2 + 1)) (by simp [List.length_drop]; omega)]
        exact (list_mid_decomp hnil).symm

theorem midTree_height_le_n (n : Nat) : ∀ l : List RatPair, l.length ≤ n →
    ∀ k : Nat, l.length + 1 ≤ 2 ^ k → (midTree l).height ≤ k := by
  induction n with
  | zero =>
      intro l hl k _
      have : l = [] := List.eq_nil_of_length_eq_zero (Nat.le_zero.mp hl)
      subst this
      rw [midTree, BTree.height]
      exact Nat.zero_le k
  | succ n ih =>
      intro l hl k hk
      by_cases hnil : l = []
      · subst hnil
        rw [midTree, BTree.height]
        exact Nat.zero_le k
      · have hmid := mid_index_lt hnil
        have hlpos : 0 < l.length := List.length_pos.mpr hnil
        match k with
        | 0 => omega
        | j + 1 =>
            rw [midTree_eq hnil, BTree.height]
            have h2j : 2 ^ (j + 1) = 2 * 2 ^ j := by rw [Nat.pow_succ]; ring
            have hmod := Nat.div_add_mod (l.length - 1) 2
            have htake : (l.take ((l.length - 1) / 2)).length + 1 ≤ 2 ^ j := by
              simp only [List.length_take]
              have hp : 0 < 2 ^ j := Nat.pos_pow_of_pos j (by omega)
              omega
            have hdrop : (l.drop ((l.length - 1) / 2 + 1)).length + 1 ≤ 2 ^ j := by
              simp only [List.length_drop]
              have hp : 0 < 2 ^ j := Nat.pos_pow_of_pos j (by omega)
              omega
            have ht := ih (l.take ((l.length - 1) / 2))
              (by simp [List.length_take]; omega) j htake
            have hd := ih (l.drop ((l.length - 1) / 2 + 1))
              (by simp [List.length_drop]; omega) j hdrop
            omega

theorem sorted_nodup_strict {l : List RatPair} (hs : sorted_by_key l)
    (hd : (l.map Prod.fst).Nodup) : strict_by_key l := by
  rw [sorted_by_key] at hs
  rw [List.Nodup, List.pairwise_map] at hd
  rw [strict_by_key]
  exact (hs.and hd).imp (fun h => lt_of_le_of_ne h.1 h.2)

theorem mergesort_nodup_keys {l : List RatPair} (hd : (l.map Prod.fst).Nodup) :
    ((mergesort l).map Prod.fst).Nodup :=
  (((mergesort_perm l).map Prod.fst).nodup_iff).mpr hd

theorem betterBST_eq_midTree {l : List RatPair} (hd : (l.map Prod.fst).Nodup) :
    betterBST l = midTree (mergesort l) := by
  rw [betterBST]
  exact build_aux_eq_midTree_n (mergesort l).length _ le_rfl
    (sorted_nodup_strict (mergesort_sorted l) (mergesort_nodup_keys hd))

theorem betterBST_inorder_eq_mergesort {l : List RatPair}
    (hd : (l.map Prod.fst).Nodup) : (betterBST l).inorder = mergesort l := by
  rw [betterBST_eq_midTree hd]
  exact midTree_inorder_n (mergesort l).length _ le_rfl

/-- C7 (amended): for every non-empty input list of key and item pairs
whose keys are pairwise distinct, the ascending in-order traversal of the
tree built by BetterBST is exactly the mergesort of the input: a
permutation of the input, sorted ascending by key.  (With duplicate keys
the build does not preserve the stable order; see the counterexample.) -/
theorem betterBST_inorder_sorted_of_nodup (l : List RatPair) (h0 : l ≠ [])
    (hd : (l.map Prod.fst).Nodup) :
    (betterBST l).inorder = mergesort l ∧ ((betterBST l).inorder).Perm l ∧
      sorted_by_key ((betterBST l).inorder) := by
  have he := betterBST_inorder_eq_mergesort hd
  exact ⟨he, he ▸ mergesort_perm l, he ▸ mergesort_sorted l⟩

/-- Witness for C7: the amended claim applied to a concrete two-element
input with distinct keys. -/
theorem betterBST_inorder_sorted_of_nodup_witness :
    ([((2 : Rat), (⟨"a", 1, 2⟩ : Treasure)), (1, ⟨"b", 1, 1⟩)] ≠ ([] : List RatPair)) ∧
      (([((2 : Rat), (⟨"a", 1, 2⟩ : Treasure)), (1, ⟨"b", 1, 1⟩)].map Prod.fst).Nodup) ∧
      ((betterBST [((2 : Rat), (⟨"a", 1, 2⟩ : Treasure)), (1, ⟨"b", 1, 1⟩)]).inorder =
          mergesort [((2 : Rat), (⟨"a", 1, 2⟩ : Treasure)), (1, ⟨"b", 1, 1⟩)] ∧
        ((betterBST [((2 : Rat), (⟨"a", 1, 2⟩ : Treasure)), (1, ⟨"b", 1, 1⟩)]).inorder).Perm
          [((2 : Rat), (⟨"a", 1, 2⟩ : Treasure)), (1, ⟨"b", 1, 1⟩)] ∧
        sorted_by_key
          ((betterBST [((2 : Rat), (⟨"a", 1, 2⟩ : Treasure)), (1, ⟨"b", 1, 1⟩)]).inorder)) :=
  ⟨by decide, by decide,
    betterBST_inorder_sorted_of_nodup _ (by decide) (by decide)⟩

/-- Counterexample to C7 as stated: a three-element input whose keys are
all equal.  The input is already weakly sorted by key, so the stable
ascending sort demanded by the claim is the input itself, but the in-order
traversal of the built tree swaps the first two elements. -/
theorem betterBST_stability_counterexample :
    sorted_by_key [((1 : Rat), (⟨"x", 1, 1⟩ : Treasure)), (1, ⟨"y", 2, 2⟩), (1, ⟨"z", 3, 3⟩)] ∧
      (betterBST [((1 : Rat), (⟨"x", 1, 1⟩ : Treasure)), (1, ⟨"y", 2, 2⟩), (1, ⟨"z", 3, 3⟩)]).inorder =
        [((1 : Rat), (⟨"y", 2, 2⟩ : Treasure)), (1, ⟨"x", 1, 1⟩), (1, ⟨"z", 3, 3⟩)] ∧
      (betterBST [((1 : Rat), (⟨"x", 1, 1⟩ : Treasure)), (1, ⟨"y", 2, 2⟩), (1, ⟨"z", 3, 3⟩)]).inorder ≠
        [((1 : Rat), (⟨"x", 1, 1⟩ : Treasure)), (1, ⟨"y", 2, 2⟩), (1, ⟨"z", 3, 3⟩)] := by
  refine ⟨by decide, ?_, ?_⟩
  · simp [betterBST, mergesort, merge_pairs, build_balanced_tree_aux, BTree.insert,
      BTree.inorder]
  · simp [betterBST, mergesort, merge_pairs, build_balanced_tree_aux, BTree.insert,
      BTree.inorder]

/-- C8 (amended): for every non-empty input list of n key and item pairs
with pairwise-distinct keys, the height of the tree built by BetterBST is
at most the base-2 ceiling logarithm of n + 1.  (With duplicate keys the
bound can fail; see the counterexample.) -/
theorem betterBST_height_le_clog (l : List RatPair) (h0 : l ≠ [])
    (hd : (l.map Prod.fst).Nodup) :
    (betterBST l).height ≤ Nat.clog 2 (l.length + 1) := by
  rw [betterBST_eq_midTree hd]
  apply midTree_height_le_n (mergesort l).length _ le_rfl
  rw [mergesort_length]
  exact Nat.le_pow_clog (by omega) _

/-- Witness for C8: the amended height bound applied to a concrete
three-element input with distinct keys. -/
theorem betterBST_height_le_clog_witness :
    ([((1 : Rat), (⟨"x", 1, 1⟩ : Treasure)), (2, ⟨"y", 1, 2⟩), (3, ⟨"z", 1, 3⟩)] ≠
        ([] : List RatPair)) ∧
      (([((1 : Rat), (⟨"x", 1, 1⟩ : Treasure)), (2, ⟨"y", 1, 2⟩), (3, ⟨"z", 1, 3⟩)].map
          Prod.fst).Nodup) ∧
      (betterBST [((1 : Rat), (⟨"x", 1, 1⟩ : Treasure)), (2, ⟨"y", 1, 2⟩), (3, ⟨"z", 1, 3⟩)]).height ≤
        Nat.clog 2 ([((1 : Rat), (⟨"x", 1, 1⟩ : Treasure)), (2, ⟨"y", 1, 2⟩), (3, ⟨"z", 1, 3⟩)].length + 1) :=
  ⟨by decide, by decide, betterBST_height_le_clog _ (by decide) (by decide)⟩

/-- Counterexample to C8 as stated: three pairs sharing one key build a
right chain of height 3, while the claimed bound for n = 3 is
the ceiling of log2 4, that is 2. -/
theorem betterBST_height_counterexample :
    (betterBST [((2 : Rat), (⟨"x", 1, 2⟩ : Treasure)), (2, ⟨"y", 2, 4⟩), (2, ⟨"z", 3, 6⟩)]).height = 3 ∧
      Nat.clog 2 ([((2 : Rat), (⟨"x", 1, 2⟩ : Treasure)), (2, ⟨"y", 2, 4⟩), (2, ⟨"z", 3, 6⟩)].length + 1) = 2 ∧
      ¬ ((betterBST [((2 : Rat), (⟨"x", 1, 2⟩ : Treasure)), (2, ⟨"y", 2, 4⟩), (2, ⟨"z", 3, 6⟩)]).height ≤
          Nat.clog 2 ([((2 : Rat), (⟨"x", 1, 2⟩ : Treasure)), (2, ⟨"y", 2, 4⟩), (2, ⟨"z", 3, 6⟩)].length + 1)) := by
  have hclog : Nat.clog 2 4 = 2 := by
    have h1 : Nat.clog 2 4 ≤ 2 := (Nat.le_pow_iff_clog_le (by omega)).mp (by omega)
    have h2 : 1 < Nat.clog 2 4 := (Nat.pow_lt_iff_lt_clog (by omega)).mp (by omega)
    omega
  have hh : (betterBST [((2 : Rat), (⟨"x", 1, 2⟩ : Treasure)), (2, ⟨"y", 2, 4⟩), (2, ⟨"z", 3, 6⟩)]).height = 3 := by
    simp [betterBST, mergesort, merge_pairs, build_balanced_tree_aux, BTree.insert,
      BTree.height]
  have hlen : [((2 : Rat), (⟨"x", 1, 2⟩ : Treasure)), (2, ⟨"y", 2, 4⟩), (2, ⟨"z", 3, 6⟩)].length + 1 = 4 := by
    decide
  rw [hh, hlen]
  exact ⟨rfl, hclog, by omega⟩

theorem inorder_ne_nil {l r : BTree} {k : Rat} {v : Treasure} :
    (BTree.node l k v r).inorder ≠ [] := by
  rw [BTree.inorder]
  simp

theorem inorder_nil_iff {t : BTree} : t.inorder = [] ↔ t = BTree.leaf := by
  cases t with
  | leaf => simp [BTree.inorder]
  | node l k v r => simp [inorder_ne_nil]

theorem get_maximal_eq_getLast? (t : BTree) : t.get_maximal = t.inorder.getLast? := by
  induction t with
  | leaf => rw [BTree.get_maximal, BTree.inorder]; rfl
  | node l k v r ihl ihr =>
      cases r with
      | leaf =>
          rw [BTree.get_maximal, BTree.inorder, BTree.inorder]
          rw [show (k, v) :: ([] : List RatPair) = [(k, v)] from rfl]
          rw [List.getLast?_concat]
      | node rl rk rv rr =>
          rw [BTree.get_maximal, BTree.inorder, ihr]
          have hne : (BTree.node rl rk rv rr).inorder ≠ [] := inorder_ne_nil
          obtain ⟨b, bs, hbs⟩ := List.exists_cons_of_ne_nil hne
          rw [hbs, List.getLast?_append, List.getLast?_cons_cons]
          rw [List.getLast?_eq_getLast (b :: bs) (by simp)]
          rfl

theorem get_minimal_eq_head? (t : BTree) : t.get_minimal = t.inorder.head? := by
  induction t with
  | leaf => rw [BTree.get_minimal, BTree.inorder]; rfl
  | node l k v r ihl ihr =>
      cases l with
      | leaf => rw [BTree.get_minimal, BTree.inorder, BTree.inorder]; rfl
      | node ll lk lv lr =>
          rw [BTree.get_minimal, BTree.inorder, ihl]
          have hne : (BTree.node ll lk lv lr).inorder ≠ [] := inorder_ne_nil
          cases hh : (BTree.node ll lk lv lr).inorder with
          | nil => exact absurd hh hne
          | cons a as => simp

theorem delete_min_inorder (t : BTree) : t.delete_min.inorder = t.inorder.tail := by
  induction t with
  | leaf => rw [BTree.delete_min, BTree.inorder]; rfl
  | node l k v r ihl ihr =>
      cases l with
      | leaf => rw [BTree.delete_min, BTree.inorder, BTree.inorder]; rfl
      | node ll lk lv lr =>
          rw [BTree.delete_min, BTree.inorder, BTree.inorder, ihl]
          have hne : (BTree.node ll lk lv lr).inorder ≠ [] := inorder_ne_nil
          cases hh : (BTree.node ll lk lv lr).inorder with
          | nil => exact absurd hh hne
          | cons a as => simp

theorem get_maximal_mem {t : BTree} {p : RatPair} (h : t.get_maximal = some p) :
    p ∈ t.inorder := by
  rw [get_maximal_eq_getLast?] at h
  exact List.mem_of_mem_getLast? h

theorem get_maximal_isSome {t : BTree} (h : t ≠ BTree.leaf) :
    ∃ p, t.get_maximal = some p := by
  rw [get_maximal_eq_getLast?]
  cases hh : t.inorder.getLast? with
  | none =>
      exact absurd (inorder_nil_iff.mp (List.getLast?_eq_none_iff.mp hh)) h
  | some a => exact ⟨a, rfl⟩

theorem strict_key_facts {A B : List RatPair} {k : Rat} {v : Treasure}
    (h : strict_by_key (A ++ (k, v) :: B)) :
    strict_by_key A ∧ strict_by_key B ∧ (∀ p ∈ A, p.1 < k) ∧ (∀ p ∈ B, k < p.1) := by
  rw [strict_by_key, List.pairwise_append] at h
  obtain ⟨h1, h2, h3⟩ := h
  rw [List.pairwise_cons] at h2
  exact ⟨h1, h2.2, fun p hp => h3 p hp (k, v) (List.mem_cons_self _ _), h2.1⟩

theorem delete_inorder {t : BTree} (k : Rat) (hs : strict_by_key t.inorder) :
    (t.delete k).inorder = t.inorder.filter (fun p => decide (p.1 ≠ k)) := by
  induction t with
  | leaf => simp [BTree.delete, BTree.inorder]
  | node l key item r ihl ihr =>
      rw [BTree.inorder] at hs
      obtain ⟨hsl, hsr, hlt, hgt⟩ := strict_key_facts hs
      rw [BTree.inorder, List.filter_append, List.filter_cons]
      rcases lt_trichotomy k key with hc | hc | hc
      · simp only [BTree.delete, if_pos hc, BTree.inorder, ihl hsl]
        rw [if_pos (decide_eq_true (show (key, item).1 ≠ k from ne_of_gt hc))]
        rw [show List.filter (fun p => decide (p.1 ≠ k)) r.inorder = r.inorder from
          List.filter_eq_self.mpr (fun p hp =>
            decide_eq_true (ne_of_gt (lt_trans hc (hgt p hp))))]
      · subst hc
        rw [if_neg (by simp)]
        rw [List.filter_eq_self.mpr (fun p hp => decide_eq_true (ne_of_lt (hlt p hp)))]
        rw [List.filter_eq_self.mpr (fun p hp => decide_eq_true (ne_of_gt (hgt p hp)))]
        cases hl : l with
        | leaf =>
            rw [BTree.delete.eq_def]
            simp [BTree.inorder]
        | node ll lk lv lr =>
            cases hr : r with
            | leaf =>
                rw [BTree.delete.eq_def]
                simp [BTree.inorder]
            | node rl rk rv rr =>
                rw [BTree.delete.eq_def]
                simp only [lt_irrefl, if_false]
                rw [get_minimal_eq_head?]
                have hne : (BTree.node rl rk rv rr).inorder ≠ [] := inorder_ne_nil
                obtain ⟨a, as, has⟩ := List.exists_cons_of_ne_nil hne
                rw [has]
                simp only [List.head?_cons]
                rw [BTree.inorder, delete_min_inorder, has]
                simp
      · simp only [BTree.delete, if_neg (by exact not_lt_of_gt hc), if_pos hc,
          BTree.inorder, ihr hsr]
        rw [if_pos (decide_eq_true (show (key, item).1 ≠ k from ne_of_lt hc))]
        rw [show List.filter (fun p => decide (p.1 ≠ k)) l.inorder = l.inorder from
          List.filter_eq_self.mpr (fun p hp =>
            decide_eq_true (ne_of_lt (lt_trans (hlt p hp) hc)))]

theorem find?_desc_max {l : List RatPair} {a : RatPair} {cap : Int}
    (hd : List.Pairwise (fun p q : RatPair => q.1 < p.1) l)
    (h : l.find? (fun p => p.2.weight ≤ cap) = some a) :
    ∀ b ∈ l, b.2.weight ≤ cap → b.1 ≤ a.1 := by
  induction l with
  | nil => simp at h
  | cons x xs ih =>
      rw [List.pairwise_cons] at hd
      by_cases hx : (x.2.weight ≤ cap)
      · rw [List.find?_cons_of_pos _ (by simpa using hx)] at h
        cases h
        intro b hb hbw
        rcases List.mem_cons.mp hb with rfl | hb
        · exact le_refl _
        · exact le_of_lt (hd.1 b hb)
      · rw [List.find?_cons_of_neg _ (by simpa using hx)] at h
        intro b hb hbw
        rcases List.mem_cons.mp hb with rfl | hb
        · exact absurd hbw hx
        · exact ih hd.2 h b hb hbw

theorem is_empty_eq_false {t : BTree} (h : t ≠ BTree.leaf) : t.is_empty = false := by
  cases t with
  | leaf => exact absurd rfl h
  | node l k v r => rw [BTree.is_empty]

theorem strict_last_max {l : List RatPair} {kp : RatPair} (hs : strict_by_key l)
    (h : l.getLast? = some kp) : ∀ q ∈ l, q.1 ≤ kp.1 := by
  obtain ⟨ys, rfl⟩ := List.getLast?_eq_some_iff.mp h
  intro q hq
  rcases List.mem_append.mp hq with hq | hq
  · rw [strict_by_key, List.pairwise_append] at hs
    exact le_of_lt (hs.2.2 q hq kp (by simp))
  · rw [List.mem_singleton] at hq
    subst hq
    exact le_refl _

theorem filter_ne_key_perm {pairs : List RatPair} {kp : RatPair}
    (hs : strict_by_key pairs) (hmem : kp ∈ pairs) :
    pairs.Perm (kp :: pairs.filter (fun p => decide (p.1 ≠ kp.1))) := by
  obtain ⟨kk, kv⟩ := kp
  obtain ⟨A, B, rfl⟩ := List.append_of_mem hmem
  obtain ⟨hA, hB, hlt, hgt⟩ := strict_key_facts hs
  rw [List.filter_append, List.filter_cons]
  rw [if_neg (by simp)]
  rw [show List.filter (fun p => decide (p.1 ≠ (kk, kv).1)) A = A from
    List.filter_eq_self.mpr (fun p hp => decide_eq_true (ne_of_lt (hlt p hp)))]
  rw [show List.filter (fun p => decide (p.1 ≠ (kk, kv).1)) B = B from
    List.filter_eq_self.mpr (fun p hp => decide_eq_true (ne_of_gt (hgt p hp)))]
  exact List.perm_middle

theorem spooky_stacked_eq_reverse (t : BTree) :
    t.inorder.foldl (fun s x => x :: s) [] = t.inorder.reverse := by
  rw [foldl_cons_eq_reverse_append, List.append_nil]

theorem spooky_extract_found {t : BTree} {cap : Int}
    (hs : strict_by_key t.inorder)
    (hfeas : ∃ p ∈ t.inorder, p.2.weight ≤ cap) :
    ∃ kp ∈ t.inorder,
      (spooky_get_optimal_treasure t cap).1 = some kp.2 ∧ kp.2.weight ≤ cap ∧
      (∀ q ∈ t.inorder, q.2.weight ≤ cap → q.1 ≤ kp.1) ∧
      (spooky_get_optimal_treasure t cap).2.inorder =
        t.inorder.filter (fun p => decide (p.1 ≠ kp.1)) := by
  have hleaf : t ≠ BTree.leaf := by
    intro hh
    subst hh
    obtain ⟨p, hp, _⟩ := hfeas
    rw [BTree.inorder] at hp
    exact absurd hp (List.not_mem_nil p)
  obtain ⟨⟨bk, bv⟩, hmax⟩ := get_maximal_isSome hleaf
  rw [spooky_get_optimal_treasure, is_empty_eq_false hleaf]
  simp only [Bool.false_eq_true, if_false, hmax]
  by_cases hbw : bv.weight ≤ cap
  · rw [if_pos hbw]
    refine ⟨(bk, bv), get_maximal_mem hmax, rfl, hbw, ?_, ?_⟩
    · intro q hq _
      exact strict_last_max hs (get_maximal_eq_getLast? t ▸ hmax) q hq
    · exact delete_inorder bk hs
  · rw [if_neg hbw]
    rw [spooky_stacked_eq_reverse]
    have hrev : List.Pairwise (fun p q : RatPair => q.1 < p.1) t.inorder.reverse := by
      rw [List.pairwise_reverse]
      exact hs
    cases hfind : t.inorder.reverse.find? (fun p => p.2.weight ≤ cap) with
    | none =>
        obtain ⟨p, hp, hpw⟩ := hfeas
        have := List.find?_eq_none.mp hfind p (List.mem_reverse.mpr hp)
        simp only [decide_eq_true_eq] at this
        exact absurd hpw this
    | some kp =>
        obtain ⟨rk, rt⟩ := kp
        have hkmem : (rk, rt) ∈ t.inorder := List.mem_reverse.mp
          (List.mem_of_find?_eq_some hfind)
        have hkw : rt.weight ≤ cap := by
          have := List.find?_some hfind
          simpa using this
        refine ⟨(rk, rt), hkmem, rfl, hkw, ?_, ?_⟩
        · intro q hq hqw
          exact find?_desc_max hrev hfind q (List.mem_reverse.mpr hq) hqw
        · exact delete_inorder rk hs

theorem spooky_restructure_inorder {ts : List Treasure}
    (hd : (ts.map value_to_weight_rat).Nodup) :
    (spooky_restructure_hollow ts).inorder =
      mergesort (ts.map (fun t => (value_to_weight_rat t, t))) := by
  rw [spooky_restructure_hollow]
  apply betterBST_inorder_eq_mergesort
  rw [List.map_map]
  exact hd

theorem spooky_restructure_keys_nodup {ts : List Treasure}
    (hd : (ts.map value_to_weight_rat).Nodup) :
    ((ts.map (fun t => (value_to_weight_rat t, t))).map Prod.fst).Nodup := by
  rw [List.map_map]
  exact hd

theorem spooky_restructure_strict {ts : List Treasure}
    (hd : (ts.map value_to_weight_rat).Nodup) :
    strict_by_key (spooky_restructure_hollow ts).inorder := by
  rw [spooky_restructure_inorder hd]
  exact sorted_nodup_strict (mergesort_sorted _)
    (mergesort_nodup_keys (spooky_restructure_keys_nodup hd))

theorem spooky_restructure_mem {ts : List Treasure} {p : RatPair}
    (hd : (ts.map value_to_weight_rat).Nodup)
    (hp : p ∈ (spooky_restructure_hollow ts).inorder) :
    p.2 ∈ ts ∧ p.1 = value_to_weight_rat p.2 := by
  rw [spooky_restructure_inorder hd] at hp
  have := (mergesort_perm _).mem_iff.mp hp
  rw [List.mem_map] at this
  obtain ⟨x, hx, hxp⟩ := this
  subst hxp
  exact ⟨hx, rfl⟩

theorem spooky_restructure_mem_rev {ts : List Treasure} {x : Treasure}
    (hd : (ts.map value_to_weight_rat).Nodup) (hx : x ∈ ts) :
    (value_to_weight_rat x, x) ∈ (spooky_restructure_hollow ts).inorder := by
  rw [spooky_restructure_inorder hd]
  apply (mergesort_perm _).mem_iff.mpr
  exact List.mem_map.mpr ⟨x, hx, rfl⟩

/-- C1 (amended): for every SpookyHollow store built from treasures with
pairwise-distinct ratios, if at least one stored treasure fits the
capacity then get_optimal_treasure returns a stored treasure of maximal
ratio among those that fit, and exactly that treasure is removed: the
multiset of stored treasures before the call is the returned treasure
together with the multiset afterwards.  (With duplicate ratios the returned
treasure and the deleted node can differ; see the counterexample.) -/
theorem spooky_get_optimal_treasure_correct (ts : List Treasure) (cap : Int)
    (hd : (ts.map value_to_weight_rat).Nodup)
    (hfeas : ∃ x ∈ ts, x.weight ≤ cap) :
    ∃ x, (spooky_get_optimal_treasure (spooky_restructure_hollow ts) cap).1 = some x ∧
      x ∈ ts ∧ x.weight ≤ cap ∧
      (∀ y ∈ ts, y.weight ≤ cap → value_to_weight_rat y ≤ value_to_weight_rat x) ∧
      (ts : Multiset Treasure) =
        x ::ₘ (↑(treasures_of
          (spooky_get_optimal_treasure (spooky_restructure_hollow ts) cap).2) :
            Multiset Treasure) := by
  have hs := spooky_restructure_strict hd
  have hfeas2 : ∃ p ∈ (spooky_restructure_hollow ts).inorder, p.2.weight ≤ cap := by
    obtain ⟨x, hx, hxw⟩ := hfeas
    exact ⟨(value_to_weight_rat x, x), spooky_restructure_mem_rev hd hx, hxw⟩
  obtain ⟨kp, hkp, hres, hkw, hkmax, hfil⟩ := spooky_extract_found hs hfeas2
  obtain ⟨hkts, hkrat⟩ := spooky_restructure_mem hd hkp
  refine ⟨kp.2, hres, hkts, hkw, ?_, ?_⟩
  · intro y hy hyw
    have := hkmax (value_to_weight_rat y, y) (spooky_restructure_mem_rev hd hy) hyw
    rw [hkrat] at this
    exact this
  · have hperm := filter_ne_key_perm hs hkp
    have htr : ts.Perm (kp.2 :: treasures_of
        (spooky_get_optimal_treasure (spooky_restructure_hollow ts) cap).2) := by
      have h1 : (spooky_restructure_hollow ts).inorder.map Prod.snd =
          treasures_of (spooky_restructure_hollow ts) := rfl
      have h2 : ((spooky_restructure_hollow ts).inorder.map Prod.snd).Perm ts := by
        rw [spooky_restructure_inorder hd]
        have := (mergesort_perm (ts.map (fun t => (value_to_weight_rat t, t)))).map Prod.snd
        refine this.trans ?_
        rw [List.map_map]
        have : (Prod.snd ∘ fun t => (value_to_weight_rat t, t)) = id := rfl
        rw [this, List.map_id]
      refine h2.symm.trans ?_
      have h3 := hperm.map Prod.snd
      rw [treasures_of, hfil]
      exact h3
    rw [Multiset.cons_coe]
    exact Multiset.coe_eq_coe.mpr htr

/-- Counterexample to C1 as stated: a SpookyHollow store built from two
treasures with equal ratio 2.  get_optimal_treasure with capacity 5
returns the rightmost treasure b, but deletes the tree node holding a:
afterwards the store still contains the returned b and no longer contains
a, contradicting that exactly the returned treasure is removed. -/
theorem spooky_duplicate_ratio_counterexample :
    (spooky_get_optimal_treasure
        (spooky_restructure_hollow [⟨"a", 2, 4⟩, ⟨"b", 3, 6⟩]) 5).1 =
      some ⟨"b", 3, 6⟩ ∧
    treasures_of (spooky_get_optimal_treasure
        (spooky_restructure_hollow [⟨"a", 2, 4⟩, ⟨"b", 3, 6⟩]) 5).2 =
      [⟨"b", 3, 6⟩] := by
  have h1 : value_to_weight_rat ⟨"a", 2, 4⟩ = 2 := by
    norm_num [value_to_weight_rat]
  have h2 : value_to_weight_rat ⟨"b", 3, 6⟩ = 2 := by
    norm_num [value_to_weight_rat]
  have hbuild : spooky_restructure_hollow [⟨"a", 2, 4⟩, ⟨"b", 3, 6⟩] =
      BTree.node BTree.leaf 2 ⟨"a", 2, 4⟩
        (BTree.node BTree.leaf 2 ⟨"b", 3, 6⟩ BTree.leaf) := by
    simp [spooky_restructure_hollow, h1, h2, betterBST, mergesort, merge_pairs,
      build_balanced_tree_aux, BTree.insert, ratPairDefault]
  rw [hbuild]
  constructor <;>
    simp [spooky_get_optimal_treasure, BTree.is_empty, BTree.get_maximal,
      BTree.delete, BTree.inorder, treasures_of]

/-- Witness for C1: the amended claim applied to a store of two
distinct-ratio treasures with capacity 3. -/
theorem spooky_get_optimal_treasure_correct_witness :
    (([(⟨"a", 2, 10⟩ : Treasure), ⟨"b", 5, 5⟩].map value_to_weight_rat).Nodup) ∧
      (∃ x ∈ [(⟨"a", 2, 10⟩ : Treasure), ⟨"b", 5, 5⟩], x.weight ≤ 3) ∧
      (∃ x, (spooky_get_optimal_treasure
          (spooky_restructure_hollow [(⟨"a", 2, 10⟩ : Treasure), ⟨"b", 5, 5⟩]) 3).1 = some x ∧
        x ∈ [(⟨"a", 2, 10⟩ : Treasure), ⟨"b", 5, 5⟩] ∧ x.weight ≤ 3 ∧
        (∀ y ∈ [(⟨"a", 2, 10⟩ : Treasure), ⟨"b", 5, 5⟩], y.weight ≤ 3 →
          value_to_weight_rat y ≤ value_to_weight_rat x) ∧
        (([(⟨"a", 2, 10⟩ : Treasure), ⟨"b", 5, 5⟩] : List Treasure) : Multiset Treasure) =
          x ::ₘ (↑(treasures_of (spooky_get_optimal_treasure
            (spooky_restructure_hollow [(⟨"a", 2, 10⟩ : Treasure), ⟨"b", 5, 5⟩]) 3).2) :
              Multiset Treasure)) :=
  ⟨by norm_num [value_to_weight_rat], ⟨⟨"a", 2, 10⟩, by decide, by decide⟩,
    spooky_get_optimal_treasure_correct _ 3 (by norm_num [value_to_weight_rat])
      ⟨⟨"a", 2, 10⟩, by decide, by decide⟩⟩

theorem spooky_extract_unchanged (t : BTree) (cap : Int)
    (h : t = BTree.leaf ∨ ∀ x ∈ treasures_of t, ¬ (x.weight ≤ cap)) :
    spooky_get_optimal_treasure t cap = (none, t) := by
  by_cases hleaf : t = BTree.leaf
  · subst hleaf
    rw [spooky_get_optimal_treasure]
    rfl
  · rcases h with h | h
    · exact absurd h hleaf
    · obtain ⟨⟨bk, bv⟩, hmax⟩ := get_maximal_isSome hleaf
      have hbv : bv ∈ treasures_of t := List.mem_map.mpr
        ⟨(bk, bv), get_maximal_mem hmax, rfl⟩
      have hbw : ¬ (bv.weight ≤ cap) := h bv hbv
      rw [spooky_get_optimal_treasure, is_empty_eq_false hleaf]
      simp only [Bool.false_eq_true, if_false, hmax]
      rw [if_neg hbw, spooky_stacked_eq_reverse]
      have hnone : t.inorder.reverse.find? (fun p => p.2.weight ≤ cap) = none := by
        rw [List.find?_eq_none]
        intro p hp
        have : p.2 ∈ treasures_of t := List.mem_map.mpr
          ⟨p, List.mem_reverse.mp hp, rfl⟩
        simpa using h p.2 this
      rw [hnone]

/-- C3: for every SpookyHollow store and capacity, if the store is empty
or no stored treasure fits the capacity, then get_optimal_treasure returns
none and leaves the store unchanged. -/
theorem spooky_get_optimal_treasure_unchanged (t : BTree) (cap : Int)
    (h : t = BTree.leaf ∨ ∀ x ∈ treasures_of t, ¬ (x.weight ≤ cap)) :
    spooky_get_optimal_treasure t cap = (none, t) :=
  spooky_extract_unchanged t cap h

/-- Witness for C3: a one-node store whose only treasure is too heavy for
capacity 1 is left unchanged and yields none. -/
theorem spooky_get_optimal_treasure_unchanged_witness :
    ((BTree.node BTree.leaf 2 ⟨"a", 2, 4⟩ BTree.leaf) = BTree.leaf ∨
      ∀ x ∈ treasures_of (BTree.node BTree.leaf 2 ⟨"a", 2, 4⟩ BTree.leaf),
        ¬ (x.weight ≤ 1)) ∧
    spooky_get_optimal_treasure (BTree.node BTree.leaf 2 ⟨"a", 2, 4⟩ BTree.leaf) 1 =
      (none, BTree.node BTree.leaf 2 ⟨"a", 2, 4⟩ BTree.leaf) :=
  ⟨Or.inr (by decide),
    spooky_get_optimal_treasure_unchanged _ 1 (Or.inr (by decide))⟩

theorem get_max_split_none_iff {h : List Treasure} :
    get_max_split h = none ↔ h = [] := by
  cases h with
  | nil => simp [get_max_split]
  | cons t ts =>
      rw [get_max_split]
      cases hh : get_max_split ts with
      | none => simp
      | some p =>
          obtain ⟨m, rest⟩ := p
          by_cases hc : value_to_weight_rat t < value_to_weight_rat m <;> simp [hc]

theorem get_max_split_spec : ∀ {h : List Treasure} {t : Treasure}
    {rest : List Treasure}, get_max_split h = some (t, rest) →
    t ∈ h ∧ h.Perm (t :: rest) ∧
      ∀ y ∈ h, value_to_weight_rat y ≤ value_to_weight_rat t := by
  intro h
  induction h with
  | nil => intro t rest hh; rw [get_max_split] at hh; cases hh
  | cons x xs ih =>
      intro t rest hh
      rw [get_max_split] at hh
      cases he : get_max_split xs with
      | none =>
          rw [he] at hh
          cases hh
          have hxs : xs = [] := get_max_split_none_iff.mp he
          subst hxs
          exact ⟨List.mem_singleton_self x, List.Perm.refl _, by simp⟩
      | some p =>
          obtain ⟨m, r⟩ := p
          obtain ⟨hm, hperm, hmax⟩ := ih he
          rw [he] at hh
          replace hh : (if value_to_weight_rat x < value_to_weight_rat m then
              some (m, x :: r) else some (x, xs)) = some (t, rest) := hh
          by_cases hc : value_to_weight_rat x < value_to_weight_rat m
          · rw [if_pos hc] at hh
            cases hh
            refine ⟨List.mem_cons_of_mem x hm, ?_, ?_⟩
            · exact (hperm.cons x).trans (List.Perm.swap t x r)
            · intro y hy
              rcases List.mem_cons.mp hy with rfl | hy
              · exact le_of_lt hc
              · exact hmax y hy
          · rw [if_neg hc] at hh
            cases hh
            refine ⟨List.mem_cons_self _ _, List.Perm.refl _, ?_⟩
            intro y hy
            rcases List.mem_cons.mp hy with rfl | hy
            · exact le_refl _
            · exact le_trans (hmax y hy) (le_of_not_lt hc)

theorem mystical_loop_none : ∀ (fuel : Nat) (heap : List Treasure) (cap : Int)
    (buffer h2 b2 : List Treasure), heap.length ≤ fuel →
    mystical_loop fuel heap cap buffer = (none, h2, b2) →
    h2 = [] ∧ b2.Perm (buffer ++ heap) ∧ ∀ y ∈ heap, ¬ (y.weight ≤ cap) := by
  intro fuel
  induction fuel with
  | zero =>
      intro heap cap buffer h2 b2 hlen heq
      have : heap = [] := List.eq_nil_of_length_eq_zero (Nat.le_zero.mp hlen)
      subst this
      rw [mystical_loop] at heq
      cases heq
      exact ⟨rfl, by simp, by simp⟩
  | succ f ih =>
      intro heap cap buffer h2 b2 hlen heq
      rw [mystical_loop] at heq
      cases he : get_max_split heap with
      | none =>
          have : heap = [] := get_max_split_none_iff.mp he
          subst this
          rw [he] at heq
          cases heq
          exact ⟨rfl, by simp, by simp⟩
      | some p =>
          obtain ⟨t, rest⟩ := p
          obtain ⟨hm, hperm, hmax⟩ := get_max_split_spec he
          have hrlen : rest.length ≤ f := by
            have := hperm.length_eq
            simp at this
            omega
          rw [he] at heq
          replace heq : (if t.weight ≤ cap then (some t, rest, buffer)
              else mystical_loop f rest cap (buffer ++ [t])) = (none, h2, b2) := heq
          by_cases hw : t.weight ≤ cap
          · rw [if_pos hw] at heq
            cases heq
          · rw [if_neg hw] at heq
            obtain ⟨h1, h2p, h3⟩ := ih rest cap (buffer ++ [t]) h2 b2 hrlen heq
            refine ⟨h1, ?_, ?_⟩
            · refine h2p.trans ?_
              rw [List.append_assoc, List.singleton_append]
              exact List.Perm.append_left buffer hperm.symm
            · intro y hy
              rcases List.mem_cons.mp (hperm.mem_iff.mp hy) with rfl | hy2
              · exact hw
              · exact h3 y hy2

theorem mystical_loop_some : ∀ (fuel : Nat) (heap : List Treasure) (cap : Int)
    (buffer : List Treasure) (x : Treasure) (h2 b2 : List Treasure),
    heap.length ≤ fuel →
    mystical_loop fuel heap cap buffer = (some x, h2, b2) →
    x ∈ heap ∧ x.weight ≤ cap ∧ (buffer ++ heap).Perm (b2 ++ x :: h2) ∧
      (∀ y ∈ heap, y.weight ≤ cap →
        value_to_weight_rat y ≤ value_to_weight_rat x) := by
  intro fuel
  induction fuel with
  | zero =>
      intro heap cap buffer x h2 b2 hlen heq
      rw [mystical_loop] at heq
      cases heq
  | succ f ih =>
      intro heap cap buffer x h2 b2 hlen heq
      rw [mystical_loop] at heq
      cases he : get_max_split heap with
      | none =>
          rw [he] at heq
          cases heq
      | some p =>
          obtain ⟨t, rest⟩ := p
          obtain ⟨hm, hperm, hmax⟩ := get_max_split_spec he
          have hrlen : rest.length ≤ f := by
            have := hperm.length_eq
            simp at this
            omega
          rw [he] at heq
          replace heq : (if t.weight ≤ cap then (some t, rest, buffer)
              else mystical_loop f rest cap (buffer ++ [t])) = (some x, h2, b2) := heq
          by_cases hw : t.weight ≤ cap
          · rw [if_pos hw] at heq
            cases heq
            exact ⟨hm, hw, List.Perm.append_left buffer hperm,
              fun y hy _ => hmax y hy⟩
          · rw [if_neg hw] at heq
            obtain ⟨h1, h2w, h2p, h3⟩ := ih rest cap (buffer ++ [t]) x h2 b2 hrlen heq
            refine ⟨hperm.mem_iff.mpr (List.mem_cons_of_mem t h1), h2w, ?_, ?_⟩
            · refine (List.Perm.append_left buffer hperm).trans ?_
              rw [show buffer ++ t :: rest = (buffer ++ [t]) ++ rest by
                rw [List.append_assoc, List.singleton_append]]
              exact h2p
            · intro y hy hyw
              rcases List.mem_cons.mp (hperm.mem_iff.mp hy) with rfl | hy2
              · exact absurd hyw hw
              · exact h3 y hy2 hyw

theorem mystical_heap2_perm (h2 b2 : List Treasure) :
    (b2.foldl (fun h t => heap_add h t) h2).Perm (b2 ++ h2) := by
  have : (fun (h : List Treasure) (t : Treasure) => heap_add h t) =
      fun (s : List Treasure) (x : Treasure) => x :: s := rfl
  rw [this, foldl_cons_eq_reverse_append]
  exact (List.reverse_perm b2).append_right h2

theorem mystical_get_none {st : MysticalHollowState} {cap : Int}
    {st2 : MysticalHollowState}
    (heq : mystical_get_optimal_treasure st cap = (none, st2)) :
    st2.heap.Perm st.heap ∧ st2.treasures = st.treasures ∧
      ∀ y ∈ st.heap, ¬ (y.weight ≤ cap) := by
  cases hr : mystical_loop st.heap.length st.heap cap [] with
  | mk r1 hb =>
      obtain ⟨h2, b2⟩ := hb
      simp only [mystical_get_optimal_treasure, hr] at heq
      cases r1 with
      | some x => cases heq
      | none =>
          cases heq
          obtain ⟨hh1, hh2, hh3⟩ := mystical_loop_none _ _ _ _ _ _ le_rfl hr
          refine ⟨?_, rfl, hh3⟩
          subst hh1
          refine (mystical_heap2_perm [] b2).trans ?_
          rw [List.append_nil]
          exact hh2.trans (by rw [List.nil_append])

theorem mystical_get_some {st : MysticalHollowState} {cap : Int} {x : Treasure}
    {st2 : MysticalHollowState}
    (heq : mystical_get_optimal_treasure st cap = (some x, st2)) :
    x ∈ st.heap ∧ x.weight ≤ cap ∧ st.heap.Perm (x :: st2.heap) ∧
      st2.treasures = st.treasures ∧
      ∀ y ∈ st.heap, y.weight ≤ cap →
        value_to_weight_rat y ≤ value_to_weight_rat x := by
  cases hr : mystical_loop st.heap.length st.heap cap [] with
  | mk r1 hb =>
      obtain ⟨h2, b2⟩ := hb
      simp only [mystical_get_optimal_treasure, hr] at heq
      cases r1 with
      | none => cases heq
      | some x2 =>
          cases heq
          obtain ⟨hh1, hh2, hh3, hh4⟩ := mystical_loop_some _ _ _ _ _ _ _ le_rfl hr
          refine ⟨hh1, hh2, ?_, rfl, hh4⟩
          rw [List.nil_append] at hh3
          refine hh3.trans ?_
          refine (List.perm_middle).trans ?_
          exact (mystical_heap2_perm h2 b2).symm.cons x

/-- C2: for every MysticalHollow state and capacity, the multiset of
treasures in the backing heap after get_optimal_treasure equals the
multiset before minus the returned treasure when one is returned, and
equals exactly the multiset before when the result is none (empty heap or
no feasible item): every buffered infeasible element is reinserted. -/
theorem mystical_get_optimal_treasure_multiset (st : MysticalHollowState)
    (cap : Int) :
    match mystical_get_optimal_treasure st cap with
    | (some x, st2) => (↑st.heap : Multiset Treasure) = x ::ₘ ↑st2.heap
    | (none, st2) => (↑st2.heap : Multiset Treasure) = ↑st.heap := by
  cases hr : mystical_get_optimal_treasure st cap with
  | mk r1 st2 =>
      cases r1 with
      | none =>
          simp only
          exact Multiset.coe_eq_coe.mpr (mystical_get_none hr).1
      | some x =>
          simp only
          rw [show (x ::ₘ ↑st2.heap : Multiset Treasure) = ↑(x :: st2.heap) from
            (Multiset.cons_coe x st2.heap)]
          exact Multiset.coe_eq_coe.mpr (mystical_get_some hr).2.2.1

/-- C10: len of a MysticalHollow returns the length of the originally
generated treasure list, and every call to get_optimal_treasure leaves the
treasures attribute, and hence the reported count, unchanged:
restructure_hollow builds the heap in the separate heap attribute and the
extraction only reassigns the heap. -/
theorem mystical_hollow_len_frame (gen : List Treasure)
    (st : MysticalHollowState) (cap : Int) :
    hollow_len (mystical_hollow_init gen) = gen.length ∧
    (mystical_get_optimal_treasure st cap).2.treasures = st.treasures ∧
    hollow_len (mystical_get_optimal_treasure st cap).2 = hollow_len st :=
  ⟨rfl, rfl, rfl⟩

theorem spooky_restructure_treasures_perm {ts : List Treasure}
    (hd : (ts.map value_to_weight_rat).Nodup) :
    (treasures_of (spooky_restructure_hollow ts)).Perm ts := by
  rw [treasures_of, spooky_restructure_inorder hd]
  have := (mergesort_perm (ts.map (fun t => (value_to_weight_rat t, t)))).map Prod.snd
  refine this.trans ?_
  rw [List.map_map]
  have h2 : (Prod.snd ∘ fun t : Treasure => (value_to_weight_rat t, t)) = id := rfl
  rw [h2, List.map_id]

theorem treasures_rat_nodup {t : BTree} (hstrict : strict_by_key t.inorder)
    (hkeys : ∀ p ∈ t.inorder, p.1 = value_to_weight_rat p.2) :
    ((treasures_of t).map value_to_weight_rat).Nodup := by
  rw [treasures_of, List.map_map]
  have : t.inorder.map (value_to_weight_rat ∘ Prod.snd) = t.inorder.map Prod.fst :=
    List.map_congr_left (fun p hp => (hkeys p hp).symm)
  rw [this, List.Nodup, List.pairwise_map]
  rw [strict_by_key] at hstrict
  exact hstrict.imp ne_of_lt

theorem mystical_forced_some {st : MysticalHollowState} {cap : Int}
    (hfeas : ∃ y ∈ st.heap, y.weight ≤ cap) :
    ∃ x st2, mystical_get_optimal_treasure st cap = (some x, st2) := by
  cases hr : mystical_get_optimal_treasure st cap with
  | mk r1 st2 =>
      cases r1 with
      | none =>
          obtain ⟨y, hy, hyw⟩ := hfeas
          exact absurd hyw ((mystical_get_none hr).2.2 y hy)
      | some x => exact ⟨x, st2, rfl⟩

theorem run_equiv_aux : ∀ (caps : List Int) (t : BTree) (st : MysticalHollowState),
    strict_by_key t.inorder →
    (∀ p ∈ t.inorder, p.1 = value_to_weight_rat p.2) →
    (treasures_of t).Perm st.heap →
    spooky_run t caps = mystical_run st caps := by
  intro caps
  induction caps with
  | nil => intro t st _ _ _; rw [spooky_run, mystical_run]
  | cons cap cs ih =>
      intro t st hstrict hkeys hperm
      rw [spooky_run, mystical_run]
      have hnodup := treasures_rat_nodup hstrict hkeys
      by_cases hfeas : ∃ p ∈ t.inorder, p.2.weight ≤ cap
      · obtain ⟨kp, hkp, hres, hkw, hkmax, hfil⟩ := spooky_extract_found hstrict hfeas
        have hkmem : kp.2 ∈ treasures_of t := List.mem_map.mpr ⟨kp, hkp, rfl⟩
        have hfeas2 : ∃ y ∈ st.heap, y.weight ≤ cap :=
          ⟨kp.2, hperm.mem_iff.mp hkmem, hkw⟩
        obtain ⟨x, st2, hr⟩ := mystical_forced_some hfeas2
        obtain ⟨hx1, hx2, hx3, hx4, hx5⟩ := mystical_get_some hr
        have hxt : x ∈ treasures_of t := hperm.mem_iff.mpr hx1
        obtain ⟨px, hpx, hpx2⟩ := List.mem_map.mp hxt
        have hxk : x = kp.2 := by
          refine List.inj_on_of_nodup_map hnodup hxt hkmem ?_
          have h1 : value_to_weight_rat kp.2 ≤ value_to_weight_rat x :=
            hx5 kp.2 (hperm.mem_iff.mp hkmem) hkw
          have h2 : value_to_weight_rat x ≤ value_to_weight_rat kp.2 := by
            have := hkmax px hpx (by rw [hpx2]; exact hx2)
            rw [hkeys px hpx, hpx2] at this
            rw [← hkeys kp hkp]
            exact this
          exact le_antisymm h2 h1
        have hresults : (spooky_get_optimal_treasure t cap).1 =
            (mystical_get_optimal_treasure st cap).1 := by
          rw [hres, hr, hxk]
        have htail : spooky_run (spooky_get_optimal_treasure t cap).2 cs =
            mystical_run st2 cs := by
          apply ih
          · rw [hfil, strict_by_key]
            rw [strict_by_key] at hstrict
            exact hstrict.sublist (List.filter_sublist _)
          · intro p hp
            rw [hfil] at hp
            exact hkeys p (List.mem_of_mem_filter hp)
          · have hmp : (treasures_of t).Perm
                (kp.2 :: (t.inorder.filter (fun p => decide (p.1 ≠ kp.1))).map
                  Prod.snd) := (filter_ne_key_perm hstrict hkp).map Prod.snd
            have hms : st.heap.Perm (kp.2 :: st2.heap) := by
              rw [← hxk]
              exact hx3
            have hcons := (hmp.symm.trans (hperm.trans hms)).cons_inv
            rw [treasures_of, hfil]
            exact hcons
        rw [hresults, hr, htail]
      · have hnofeas : ∀ y ∈ treasures_of t, ¬ (y.weight ≤ cap) := by
          intro y hy hyw
          obtain ⟨p, hp, hp2⟩ := List.mem_map.mp hy
          exact hfeas ⟨p, hp, by rw [hp2]; exact hyw⟩
        have hsp := spooky_extract_unchanged t cap (Or.inr hnofeas)
        cases hr : mystical_get_optimal_treasure st cap with
        | mk r1 st2 =>
            cases r1 with
            | some x =>
                obtain ⟨hx1, hx2, _⟩ := mystical_get_some hr
                exact absurd hx2 (hnofeas x (hperm.mem_iff.mpr hx1))
            | none =>
                obtain ⟨hst2, _, _⟩ := mystical_get_none hr
                have htail : spooky_run t cs = mystical_run st2 cs :=
                  ih t st2 hstrict hkeys (hperm.trans hst2.symm)
                rw [hsp]
                show (none : Option Treasure) :: spooky_run t cs =
                  (none : Option Treasure) :: mystical_run st2 cs
                rw [htail]


/-- C6: for stores built from the same initial treasure list with
pairwise-distinct ratios (the tie-break for equal ratios held fixed by
excluding ties) and any identical sequence of capacities, the sequence of
results extracted by SpookyHollow.get_optimal_treasure equals the sequence
extracted by MysticalHollow.get_optimal_treasure. -/
theorem spooky_mystical_equivalence (ts : List Treasure) (caps : List Int)
    (hd : (ts.map value_to_weight_rat).Nodup) :
    spooky_run (spooky_restructure_hollow ts) caps =
      mystical_run (mystical_hollow_init ts) caps := by
  apply run_equiv_aux
  · exact spooky_restructure_strict hd
  · intro p hp
    exact (spooky_restructure_mem hd hp).2
  · exact spooky_restructure_treasures_perm hd

/-- Witness for C6: the equivalence applied to three concrete treasures of
distinct ratios and a concrete capacity sequence. -/
theorem spooky_mystical_equivalence_witness :
    (([(⟨"a", 2, 4⟩ : Treasure), ⟨"c", 1, 5⟩, ⟨"d", 7, 7⟩].map
        value_to_weight_rat).Nodup) ∧
      spooky_run (spooky_restructure_hollow
          [(⟨"a", 2, 4⟩ : Treasure), ⟨"c", 1, 5⟩, ⟨"d", 7, 7⟩]) [2, 1, 7, 3] =
        mystical_run (mystical_hollow_init
          [(⟨"a", 2, 4⟩ : Treasure), ⟨"c", 1, 5⟩, ⟨"d", 7, 7⟩]) [2, 1, 7, 3] :=
  ⟨by norm_num [value_to_weight_rat],
    spooky_mystical_equivalence _ _ (by norm_num [value_to_weight_rat])⟩

theorem dfs_zero (m : Maze) (pos : Position) (vis : List Position) :
    depth_first_search m 0 pos vis = none := by
  rw [depth_first_search]

theorem dfs_succ (m : Maze) (f : Nat) (pos : Position) (vis : List Position) :
    depth_first_search m (f + 1) pos vis =
      if m.tileAt pos = Tile.exit then some (some [pos], pos :: vis)
      else
        match dfs_children m f (get_available_positions m (pos :: vis) pos)
            (pos :: vis) with
        | none => none
        | some (some suffix, vis2) => some (some (pos :: suffix), vis2)
        | some (none, vis2) => some (none, vis2) := by
  rw [depth_first_search]

theorem dfs_children_nil (m : Maze) (fuel : Nat) (vis : List Position) :
    dfs_children m fuel [] vis = some (none, vis) := by
  rw [dfs_children]

theorem dfs_children_cons (m : Maze) (fuel : Nat) (c : Position)
    (rest vis : List Position) :
    dfs_children m fuel (c :: rest) vis =
      match depth_first_search m fuel c vis with
      | none => none
      | some (some s, vis2) => some (some s, vis2)
      | some (none, vis2) => dfs_children m fuel rest vis2 := by
  rw [dfs_children]

theorem is_valid_position_iff {m : Maze} {vis : List Position} {p : Position} :
    is_valid_position m vis p = true ↔
      in_bounds m p = true ∧ m.tileAt p ≠ Tile.wall ∧ p ∉ vis := by
  rw [is_valid_position]
  by_cases hb : in_bounds m p
  · simp only [hb, Bool.not_true, Bool.false_eq_true, if_false]
    by_cases hw : m.tileAt p = Tile.wall
    · simp [hw]
    · by_cases hv : p ∈ vis
      · simp [hw, hv]
      · simp [hw, hv]
  · simp [hb]

theorem mem_get_available_positions {m : Maze} {vis : List Position}
    {pos c : Position} :
    c ∈ get_available_positions m vis pos ↔
      (∃ d ∈ exit_postions, c = Position.mk (pos.row + d.1) (pos.col + d.2)) ∧
        is_valid_position m vis c = true := by
  rw [get_available_positions, List.mem_filter, List.mem_map]
  constructor
  · rintro ⟨⟨d, hd, rfl⟩, hv⟩
    exact ⟨⟨d, hd, rfl⟩, hv⟩
  · rintro ⟨⟨d, hd, rfl⟩, hv⟩
    exact ⟨⟨d, hd, rfl⟩, hv⟩

theorem avail_adj_step {m : Maze} {vis : List Position} {pos c : Position}
    (h : c ∈ get_available_positions m vis pos) :
    adj_step m pos c ∧ c ∉ vis := by
  obtain ⟨hd, hv⟩ := mem_get_available_positions.mp h
  obtain ⟨hb, hw, hnv⟩ := is_valid_position_iff.mp hv
  exact ⟨⟨hd, hb, hw⟩, hnv⟩

theorem mem_all_positions {m : Maze} {p : Position} :
    p ∈ all_positions m ↔ in_bounds m p = true := by
  rw [all_positions, in_bounds]
  simp only [List.mem_flatMap, List.mem_map, List.mem_range, Bool.and_eq_true,
    decide_eq_true_eq]
  constructor
  · rintro ⟨i, hi, j, hj, rfl⟩
    simp only [Int.ofNat_eq_coe]
    omega
  · intro hb
    refine ⟨p.row.toNat, by omega, p.col.toNat, by omega, ?_⟩
    obtain ⟨pr, pc⟩ := p
    simp only at hb
    simp only [Position.mk.injEq, Int.ofNat_eq_coe]
    omega

theorem unvis_mono {m : Maze} {vis vis2 : List Position}
    (h : ∀ q ∈ vis, q ∈ vis2) : unvis m vis2 ≤ unvis m vis := by
  rw [unvis, unvis]
  apply List.Sublist.length_le
  apply List.monotone_filter_right
  intro p hp
  simp only [decide_eq_true_eq] at hp ⊢
  intro hmem
  exact hp (h p hmem)

theorem unvis_cons_lt {m : Maze} {v0 : List Position} {c : Position}
    (hb : in_bounds m c = true) (hc : c ∉ v0) :
    unvis m (c :: v0) < unvis m v0 := by
  rw [unvis, unvis]
  have hsub : ((all_positions m).filter (fun p => decide (p ∉ c :: v0))).Sublist
      ((all_positions m).filter (fun p => decide (p ∉ v0))) := by
    apply List.monotone_filter_right
    intro p hp
    simp only [decide_eq_true_eq, List.mem_cons] at hp ⊢
    intro hmem
    exact hp (Or.inr hmem)
  rcases Nat.lt_or_ge ((all_positions m).filter
      (fun p => decide (p ∉ c :: v0))).length ((all_positions m).filter
      (fun p => decide (p ∉ v0))).length with hlt | hge
  · exact hlt
  · exfalso
    have heq := hsub.eq_of_length (Nat.le_antisymm hsub.length_le hge)
    have hc1 : c ∈ (all_positions m).filter (fun p => decide (p ∉ v0)) := by
      rw [List.mem_filter]
      exact ⟨mem_all_positions.mpr hb, by simpa using hc⟩
    rw [← heq, List.mem_filter] at hc1
    simp at hc1

theorem unvis_cons_mem {m : Maze} {vis : List Position} {c : Position}
    (hc : c ∈ vis) : unvis m (c :: vis) = unvis m vis := by
  rw [unvis, unvis]
  congr 1
  apply List.filter_congr
  intro p hp
  simp only [decide_eq_decide, List.mem_cons]
  constructor
  · intro h hm; exact h (Or.inr hm)
  · intro h hm
    rcases hm with rfl | hm
    · exact h hc
    · exact h hm

theorem dfs_vis_mono (m : Maze) : ∀ fuel : Nat,
    (∀ pos vis r vis2, depth_first_search m fuel pos vis = some (r, vis2) →
      ∀ q, q ∈ vis → q ∈ vis2) ∧
    (∀ cs vis r vis2, dfs_children m fuel cs vis = some (r, vis2) →
      ∀ q, q ∈ vis → q ∈ vis2) := by
  intro fuel
  induction fuel with
  | zero =>
      constructor
      · intro pos vis r vis2 h
        rw [dfs_zero] at h
        cases h
      · intro cs vis r vis2 h
        induction cs generalizing vis with
        | nil =>
            rw [dfs_children_nil] at h
            cases h
            exact fun q hq => hq
        | cons c rest ihc =>
            rw [dfs_children_cons, dfs_zero] at h
            replace h : (none : Option (Option (List Position) × List Position)) =
              some (r, vis2) := h
            cases h
  | succ f ihf =>
      have hdfs : ∀ pos vis r vis2,
          depth_first_search m (f + 1) pos vis = some (r, vis2) →
          ∀ q, q ∈ vis → q ∈ vis2 := by
        intro pos vis r vis2 h
        rw [dfs_succ] at h
        by_cases hexit : m.tileAt pos = Tile.exit
        · rw [if_pos hexit] at h
          cases h
          exact fun q hq => List.mem_cons_of_mem _ hq
        · rw [if_neg hexit] at h
          cases hc : dfs_children m f
              (get_available_positions m (pos :: vis) pos) (pos :: vis) with
          | none =>
              rw [hc] at h
              replace h : (none : Option (Option (List Position) × List Position)) =
                some (r, vis2) := h
              cases h
          | some p2 =>
              obtain ⟨r2, vis3⟩ := p2
              rw [hc] at h
              have hsub := ihf.2 _ _ _ _ hc
              cases r2 with
              | some s =>
                  replace h : some (some (pos :: s), vis3) = some (r, vis2) := h
                  cases h
                  exact fun q hq => hsub q (List.mem_cons_of_mem _ hq)
              | none =>
                  replace h : some ((none : Option (List Position)), vis3) =
                    some (r, vis2) := h
                  cases h
                  exact fun q hq => hsub q (List.mem_cons_of_mem _ hq)
      refine ⟨hdfs, ?_⟩
      intro cs vis r vis2 h
      induction cs generalizing vis with
      | nil =>
          rw [dfs_children_nil] at h
          cases h
          exact fun q hq => hq
      | cons c rest ihc =>
          rw [dfs_children_cons] at h
          cases hd : depth_first_search m (f + 1) c vis with
          | none =>
              rw [hd] at h
              replace h : (none : Option (Option (List Position) × List Position)) =
                some (r, vis2) := h
              cases h
          | some p2 =>
              obtain ⟨r2, vis3⟩ := p2
              rw [hd] at h
              have hsub := hdfs _ _ _ _ hd
              cases r2 with
              | some s =>
                  replace h : some (some s, vis3) = some (r, vis2) := h
                  cases h
                  exact hsub
              | none =>
                  replace h : dfs_children m (f + 1) rest vis3 = some (r, vis2) := h
                  exact fun q hq => ihc _ h q (hsub q hq)

theorem dfs_closed_mono {m : Maze} {vis3 vis2 : List Position} {q : Position}
    (h : dfs_closed m vis3 q) (hsub : ∀ x, x ∈ vis3 → x ∈ vis2) :
    dfs_closed m vis2 q :=
  ⟨h.1, fun d hd hb hw => hsub _ (h.2 d hd hb hw)⟩

theorem dfs_fail (m : Maze) : ∀ fuel : Nat,
    (∀ pos vis vis2, depth_first_search m fuel pos vis = some (none, vis2) →
      pos ∈ vis2 ∧ ∀ q ∈ vis2, q ∉ vis → dfs_closed m vis2 q) ∧
    (∀ cs vis vis2, dfs_children m fuel cs vis = some (none, vis2) →
      (∀ c ∈ cs, c ∈ vis2) ∧ ∀ q ∈ vis2, q ∉ vis → dfs_closed m vis2 q) := by
  intro fuel
  induction fuel with
  | zero =>
      constructor
      · intro pos vis vis2 h
        rw [dfs_zero] at h
        cases h
      · intro cs vis vis2 h
        induction cs generalizing vis with
        | nil =>
            rw [dfs_children_nil] at h
            cases h
            exact ⟨by simp, fun q hq hq2 => absurd hq hq2⟩
        | cons c rest ihc =>
            rw [dfs_children_cons, dfs_zero] at h
            replace h : (none : Option (Option (List Position) × List Position)) =
              some (none, vis2) := h
            cases h
  | succ f ihf =>
      have hdfs : ∀ pos vis vis2,
          depth_first_search m (f + 1) pos vis = some (none, vis2) →
          pos ∈ vis2 ∧ ∀ q ∈ vis2, q ∉ vis → dfs_closed m vis2 q := by
        intro pos vis vis2 h
        rw [dfs_succ] at h
        by_cases hexit : m.tileAt pos = Tile.exit
        · rw [if_pos hexit] at h
          simp at h
        · rw [if_neg hexit] at h
          cases hc : dfs_children m f
              (get_available_positions m (pos :: vis) pos) (pos :: vis) with
          | none =>
              rw [hc] at h
              replace h : (none : Option (Option (List Position) × List Position)) =
                some (none, vis2) := h
              cases h
          | some p2 =>
              obtain ⟨r2, vis3⟩ := p2
              rw [hc] at h
              cases r2 with
              | some s =>
                  replace h : some (some (pos :: s), vis3) = some (none, vis2) := h
                  simp at h
              | none =>
                  replace h : some ((none : Option (List Position)), vis3) =
                    some (none, vis2) := h
                  cases h
                  obtain ⟨hcs, hclosed⟩ := ihf.2 _ _ _ hc
                  have hsub := (dfs_vis_mono m f).2 _ _ _ _ hc
                  have hpos : pos ∈ vis2 := hsub pos (List.mem_cons_self _ _)
                  refine ⟨hpos, ?_⟩
                  intro q hq hqv
                  by_cases hqp : q = pos
                  · subst hqp
                    refine ⟨hexit, ?_⟩
                    intro d hd hb hw
                    by_cases hmem : Position.mk (q.row + d.1) (q.col + d.2) ∈
                        q :: vis
                    · exact hsub _ hmem
                    · apply hcs
                      apply mem_get_available_positions.mpr
                      exact ⟨⟨d, hd, rfl⟩, is_valid_position_iff.mpr ⟨hb, hw, hmem⟩⟩
                  · exact hclosed q hq (by
                      intro hmem
                      rcases List.mem_cons.mp hmem with h1 | h1
                      · exact hqp h1
                      · exact hqv h1)
      refine ⟨hdfs, ?_⟩
      intro cs vis vis2 h
      induction cs generalizing vis with
      | nil =>
          rw [dfs_children_nil] at h
          cases h
          exact ⟨by simp, fun q hq hq2 => absurd hq hq2⟩
      | cons c rest ihc =>
          rw [dfs_children_cons] at h
          cases hd : depth_first_search m (f + 1) c vis with
          | none =>
              rw [hd] at h
              replace h : (none : Option (Option (List Position) × List Position)) =
                some (none, vis2) := h
              cases h
          | some p2 =>
              obtain ⟨r2, vis3⟩ := p2
              rw [hd] at h
              cases r2 with
              | some s =>
                  replace h : some (some s, vis3) = some (none, vis2) := h
                  simp at h
              | none =>
                  replace h : dfs_children m (f + 1) rest vis3 = some (none, vis2) := h
                  obtain ⟨hc3, hcl3⟩ := hdfs _ _ _ hd
                  obtain ⟨hrest, hclr⟩ := ihc _ h
                  have hsub3 := (dfs_vis_mono m (f + 1)).1 _ _ _ _ hd
                  have hsubr := (dfs_vis_mono m (f + 1)).2 _ _ _ _ h
                  refine ⟨?_, ?_⟩
                  · intro c2 hc2
                    rcases List.mem_cons.mp hc2 with rfl | hc2
                    · exact hsubr _ hc3
                    · exact hrest c2 hc2
                  · intro q hq hqv
                    by_cases hq3 : q ∈ vis3
                    · exact dfs_closed_mono (hcl3 q hq3 hqv) hsubr
                    · exact hclr q hq hq3

theorem dfs_succeed (m : Maze) : ∀ fuel : Nat,
    (∀ pos vis p vis2, depth_first_search m fuel pos vis = some (some p, vis2) →
      (∀ v ∈ vis, m.tileAt v ≠ Tile.exit) →
      ∃ tail, p = pos :: tail ∧ (∀ y ∈ tail, y ∉ pos :: vis) ∧ p.Nodup ∧
        List.Chain' (adj_step m) p ∧
        ∃ e, p.getLast? = some e ∧ m.tileAt e = Tile.exit) ∧
    (∀ (cs vis v0 : List Position) (pos0 : Position) (s vis2 : List Position),
      dfs_children m fuel cs vis = some (some s, vis2) →
      (∀ v ∈ vis, m.tileAt v ≠ Tile.exit) →
      (∀ q ∈ v0, q ∈ vis) →
      (∀ c ∈ cs, c ∉ v0 ∧ adj_step m pos0 c) →
      ∃ c ∈ cs, ∃ tail, s = c :: tail ∧ (∀ y ∈ s, y ∉ v0) ∧ s.Nodup ∧
        List.Chain' (adj_step m) s ∧
        ∃ e, s.getLast? = some e ∧ m.tileAt e = Tile.exit) := by
  intro fuel
  induction fuel with
  | zero =>
      constructor
      · intro pos vis p vis2 h
        rw [dfs_zero] at h
        cases h
      · intro cs vis v0 pos0 s vis2 h
        induction cs generalizing vis with
        | nil =>
            rw [dfs_children_nil] at h
            simp at h
        | cons c rest ihc =>
            rw [dfs_children_cons, dfs_zero] at h
            replace h : (none : Option (Option (List Position) × List Position)) =
              some (some s, vis2) := h
            cases h
  | succ f ihf =>
      have hdfs : ∀ pos vis p vis2,
          depth_first_search m (f + 1) pos vis = some (some p, vis2) →
          (∀ v ∈ vis, m.tileAt v ≠ Tile.exit) →
          ∃ tail, p = pos :: tail ∧ (∀ y ∈ tail, y ∉ pos :: vis) ∧ p.Nodup ∧
            List.Chain' (adj_step m) p ∧
            ∃ e, p.getLast? = some e ∧ m.tileAt e = Tile.exit := by
        intro pos vis p vis2 h hnoexit
        rw [dfs_succ] at h
        by_cases hexit : m.tileAt pos = Tile.exit
        · rw [if_pos hexit] at h
          cases h
          exact ⟨[], rfl, by simp, by simp, List.chain'_singleton _,
            pos, rfl, hexit⟩
        · rw [if_neg hexit] at h
          cases hc : dfs_children m f
              (get_available_positions m (pos :: vis) pos) (pos :: vis) with
          | none =>
              rw [hc] at h
              replace h : (none : Option (Option (List Position) × List Position)) =
                some (some p, vis2) := h
              cases h
          | some p2 =>
              obtain ⟨r2, vis3⟩ := p2
              rw [hc] at h
              cases r2 with
              | none =>
                  replace h : some ((none : Option (List Position)), vis3) =
                    some (some p, vis2) := h
                  simp at h
              | some s =>
                  replace h : some (some (pos :: s), vis3) = some (some p, vis2) := h
                  cases h
                  have hnoexit1 : ∀ v ∈ pos :: vis, m.tileAt v ≠ Tile.exit := by
                    intro v hv
                    rcases List.mem_cons.mp hv with rfl | hv
                    · exact hexit
                    · exact hnoexit v hv
                  obtain ⟨c, hcmem, tail_c, hs, hdisj, hnd, hch, e, hlast, hex⟩ :=
                    ihf.2 _ _ (pos :: vis) pos _ _ hc hnoexit1 (fun q hq => hq)
                      (fun c2 hc2 => ⟨(avail_adj_step hc2).2, (avail_adj_step hc2).1⟩)
                  refine ⟨s, rfl, hdisj, ?_, ?_, e, ?_, hex⟩
                  · rw [List.nodup_cons]
                    refine ⟨?_, hnd⟩
                    intro hmem
                    exact hdisj pos hmem (List.mem_cons_self _ _)
                  · rw [hs]
                    rw [List.chain'_cons]
                    refine ⟨((avail_adj_step hcmem).1), ?_⟩
                    rw [← hs]
                    exact hch
                  · rw [hs] at hlast ⊢
                    rw [List.getLast?_cons_cons]
                    exact hlast
      refine ⟨hdfs, ?_⟩
      intro cs
      induction cs with
      | nil =>
          intro vis v0 pos0 s vis2 h hnoexit hv0 hcs
          rw [dfs_children_nil] at h
          simp at h
      | cons c rest ihc =>
          intro vis v0 pos0 s vis2 h hnoexit hv0 hcs
          rw [dfs_children_cons] at h
          cases hd : depth_first_search m (f + 1) c vis with
          | none =>
              rw [hd] at h
              replace h : (none : Option (Option (List Position) × List Position)) =
                some (some s, vis2) := h
              cases h
          | some p2 =>
              obtain ⟨r2, vis3⟩ := p2
              rw [hd] at h
              cases r2 with
              | some s2 =>
                  replace h : some (some s2, vis3) = some (some s, vis2) := h
                  cases h
                  obtain ⟨tail, hs, hdisj, hnd, hch, e, hlast, hex⟩ :=
                    hdfs _ _ _ _ hd hnoexit
                  refine ⟨c, List.mem_cons_self _ _, tail, hs, ?_, hnd, hch,
                    e, hlast, hex⟩
                  intro y hy hyv0
                  rw [hs] at hy
                  rcases List.mem_cons.mp hy with rfl | hy
                  · exact (hcs y (List.mem_cons_self _ _)).1 hyv0
                  · exact hdisj y hy (List.mem_cons_of_mem _ (hv0 y hyv0))
              | none =>
                  replace h : dfs_children m (f + 1) rest vis3 = some (some s, vis2) := h
                  have hfail := ((dfs_fail m (f + 1)).1 _ _ _ hd).2
                  have hmono := (dfs_vis_mono m (f + 1)).1 _ _ _ _ hd
                  have hnoexit3 : ∀ v ∈ vis3, m.tileAt v ≠ Tile.exit := by
                    intro v hv
                    by_cases hvv : v ∈ vis
                    · exact hnoexit v hvv
                    · exact (hfail v hv hvv).1
                  obtain ⟨c2, hc2, tail, hs, hdisj, hnd, hch, e, hlast, hex⟩ :=
                    ihc vis3 v0 pos0 s vis2 h hnoexit3
                      (fun q hq => hmono q (hv0 q hq))
                      (fun c2 hc2 => hcs c2 (List.mem_cons_of_mem _ hc2))
                  exact ⟨c2, List.mem_cons_of_mem _ hc2, tail, hs, hdisj, hnd,
                    hch, e, hlast, hex⟩

theorem dfs_children_suff (m : Maze) : ∀ N : Nat, ∀ (cs vis v0 : List Position),
    unvis m v0 ≤ N → (∀ q ∈ v0, q ∈ vis) →
    (∀ c ∈ cs, in_bounds m c = true ∧ c ∉ v0) →
    (dfs_children m N cs vis).isSome := by
  intro N
  induction N using Nat.strong_induction_on with
  | _ N ihN =>
      intro cs
      induction cs with
      | nil =>
          intro vis v0 _ _ _
          rw [dfs_children_nil]
          rfl
      | cons c rest ihc =>
          intro vis v0 hN hv0 hcs
          have hcb := (hcs c (List.mem_cons_self _ _)).1
          have hcv0 := (hcs c (List.mem_cons_self _ _)).2
          match N, hN with
          | 0, hN =>
              exfalso
              have := unvis_cons_lt (m := m) hcb hcv0
              omega
          | M + 1, hN =>
              have hdfs : (depth_first_search m (M + 1) c vis).isSome := by
                have hlt : unvis m (c :: vis) ≤ M := by
                  by_cases hcvis : c ∈ vis
                  · rw [unvis_cons_mem hcvis]
                    have h1 : ∀ q ∈ c :: v0, q ∈ vis := by
                      intro q hq
                      rcases List.mem_cons.mp hq with rfl | hq
                      · exact hcvis
                      · exact hv0 q hq
                    have h2 := unvis_mono (m := m) h1
                    have h3 := unvis_cons_lt (m := m) hcb hcv0
                    omega
                  · have h1 := unvis_cons_lt (m := m) hcb (fun hc2 => hcvis (hv0 c hc2))
                    have h2 : ∀ q ∈ c :: v0, q ∈ c :: vis := by
                      intro q hq
                      rcases List.mem_cons.mp hq with rfl | hq
                      · exact List.mem_cons_self _ _
                      · exact List.mem_cons_of_mem _ (hv0 q hq)
                    have h3 := unvis_mono (m := m) h2
                    have h4 := unvis_cons_lt (m := m) hcb hcv0
                    omega
                rw [dfs_succ]
                by_cases hexit : m.tileAt c = Tile.exit
                · rw [if_pos hexit]
                  rfl
                · rw [if_neg hexit]
                  have hch : (dfs_children m M
                      (get_available_positions m (c :: vis) c) (c :: vis)).isSome := by
                    apply ihN M (by omega) _ _ (c :: vis) hlt (fun q hq => hq)
                    intro c2 hc2
                    obtain ⟨hadj, hnm⟩ := avail_adj_step hc2
                    exact ⟨hadj.2.1, hnm⟩
                  cases hcc : dfs_children m M
                      (get_available_positions m (c :: vis) c) (c :: vis) with
                  | none => rw [hcc] at hch; cases hch
                  | some p2 =>
                      obtain ⟨r2, vis3⟩ := p2
                      cases r2 with
                      | some s => rfl
                      | none => rfl
              cases hd : depth_first_search m (M + 1) c vis with
              | none => rw [hd] at hdfs; cases hdfs
              | some p2 =>
                  obtain ⟨r2, vis3⟩ := p2
                  rw [dfs_children_cons, hd]
                  cases r2 with
                  | some s => rfl
                  | none =>
                      have hmono := (dfs_vis_mono m (M + 1)).1 _ _ _ _ hd
                      exact ihc vis3 v0 hN (fun q hq => hmono q (hv0 q hq))
                        (fun c2 hc2 => hcs c2 (List.mem_cons_of_mem _ hc2))

theorem unvis_le_total (m : Maze) (vis : List Position) :
    unvis m vis ≤ (all_positions m).length :=
  List.length_filter_le _ _

theorem find_way_out_isSome (m : Maze) :
    (depth_first_search m ((all_positions m).length + 2)
      m.start_position []).isSome := by
  rw [show (all_positions m).length + 2 = ((all_positions m).length + 1) + 1
    from rfl]
  rw [dfs_succ]
  by_cases hexit : m.tileAt m.start_position = Tile.exit
  · rw [if_pos hexit]
    rfl
  · rw [if_neg hexit]
    have hch := dfs_children_suff m ((all_positions m).length + 1)
      (get_available_positions m (m.start_position :: []) m.start_position)
      (m.start_position :: []) (m.start_position :: [])
      (by have := unvis_le_total m (m.start_position :: []); omega)
      (fun q hq => hq)
      (fun c hc => ⟨(avail_adj_step hc).1.2.1, (avail_adj_step hc).2⟩)
    cases hcc : dfs_children m ((all_positions m).length + 1)
        (get_available_positions m (m.start_position :: []) m.start_position)
        (m.start_position :: []) with
    | none => rw [hcc] at hch; cases hch
    | some p2 =>
        obtain ⟨r2, vis3⟩ := p2
        cases r2 with
        | some s => rfl
        | none => rfl

theorem reach_mem_of_fail {m : Maze} {visF : List Position}
    (hd : depth_first_search m ((all_positions m).length + 2)
      m.start_position [] = some (none, visF)) :
    ∀ e, Reach m e → e ∈ visF := by
  have hfail := (dfs_fail m ((all_positions m).length + 2)).1 _ _ _ hd
  intro e he
  induction he with
  | start => exact hfail.1
  | step hp hadj hb hw ih =>
      obtain ⟨d, hdmem, rfl⟩ := hadj
      exact (hfail.2 _ ih (List.not_mem_nil _)).2 d hdmem hb hw

theorem chain_reach (m : Maze) : ∀ (l : List Position) (a : Position),
    Reach m a → List.Chain' (adj_step m) (a :: l) → ∀ x ∈ a :: l, Reach m x := by
  intro l
  induction l with
  | nil =>
      intro a ha _ x hx
      rw [List.mem_singleton] at hx
      subst hx
      exact ha
  | cons b t ih =>
      intro a ha hch x hx
      rw [List.chain'_cons] at hch
      have hb : Reach m b := Reach.step ha hch.1.1 hch.1.2.1 hch.1.2.2
      rcases List.mem_cons.mp hx with rfl | hx
      · exact ha
      · exact ih b hb hch.2 x hx

/-- C4: for every maze with an in-bounds start position, find_way_out
returns a list of pairwise-distinct positions starting at the start
position, ending at an exit, in which each consecutive pair is an
orthogonal step onto an in-bounds non-wall cell, whenever some exit is
reachable from the start through non-wall cells; and it returns none
exactly when no exit is reachable.  (The bounds hypothesis marks where the
embedding is faithful: the source would index the grid out of range for an
out-of-bounds start.) -/
theorem find_way_out_correct (m : Maze)
    (hstart : in_bounds m m.start_position = true) :
    (∀ p, find_way_out m = some p →
        p.head? = some m.start_position ∧ p.Nodup ∧
        List.Chain' (adj_step m) p ∧
        ∃ e, p.getLast? = some e ∧ m.tileAt e = Tile.exit ∧ Reach m e) ∧
    (find_way_out m = none ↔ ¬ ∃ e, Reach m e ∧ m.tileAt e = Tile.exit) := by
  have hsome := find_way_out_isSome m
  cases hd : depth_first_search m ((all_positions m).length + 2)
      m.start_position [] with
  | none => rw [hd] at hsome; cases hsome
  | some p2 =>
      obtain ⟨r, visF⟩ := p2
      have hfw : find_way_out m = match (some (r, visF) :
          Option (Option (List Position) × List Position)) with
        | some (some path, _) => some path
        | _ => none := by
        rw [find_way_out, hd]
      constructor
      · intro p hp
        cases r with
        | none => rw [hfw] at hp; cases hp
        | some p0 =>
            rw [hfw] at hp
            replace hp : some p0 = some p := hp
            cases hp
            obtain ⟨tail, hptl, hdisj, hnd, hch, e, hlast, hex⟩ :=
              (dfs_succeed m _).1 _ _ _ _ hd (by simp)
            subst hptl
            have hreach : ∀ x ∈ m.start_position :: tail, Reach m x := by
              apply chain_reach m tail m.start_position Reach.start hch
            refine ⟨rfl, hnd, hch, e, hlast, hex, ?_⟩
            exact hreach e (List.mem_of_mem_getLast? hlast)
      · constructor
        · intro hnone
          cases r with
          | some p0 =>
              rw [hfw] at hnone
              cases hnone
          | none =>
              rintro ⟨e, hre, hex⟩
              have hmem := reach_mem_of_fail hd e hre
              have hfail := (dfs_fail m ((all_positions m).length + 2)).1 _ _ _ hd
              exact (hfail.2 e hmem (List.not_mem_nil _)).1 hex
        · intro hnoexit
          cases r with
          | none => rw [hfw]
          | some p0 =>
              exfalso
              obtain ⟨tail, hptl, hdisj, hnd, hch, e, hlast, hex⟩ :=
                (dfs_succeed m _).1 _ _ _ _ hd (by simp)
              subst hptl
              have hreach : ∀ x ∈ m.start_position :: tail, Reach m x :=
                chain_reach m tail m.start_position Reach.start hch
              exact hnoexit ⟨e, hreach e (List.mem_of_mem_getLast? hlast), hex⟩

/-- Witness for C4: the correctness theorem applied to a concrete
one-by-two maze whose exit is next to the start, showing the bounds
hypothesis holds there and that a path is found. -/
theorem find_way_out_correct_witness :
    in_bounds (⟨1, 2, ⟨0, 0⟩,
        fun p => if p = ⟨0, 1⟩ then Tile.exit else Tile.blank⟩ : Maze)
      (Maze.start_position ⟨1, 2, ⟨0, 0⟩,
        fun p => if p = ⟨0, 1⟩ then Tile.exit else Tile.blank⟩) = true ∧
    ¬ (find_way_out (⟨1, 2, ⟨0, 0⟩,
        fun p => if p = ⟨0, 1⟩ then Tile.exit else Tile.blank⟩ : Maze) = none) := by
  refine ⟨by decide, ?_⟩
  have h := (find_way_out_correct (⟨1, 2, ⟨0, 0⟩,
      fun p => if p = ⟨0, 1⟩ then Tile.exit else Tile.blank⟩ : Maze) (by decide)).2
  intro hnone
  refine (h.mp hnone) ⟨⟨0, 1⟩, ?_, by decide⟩
  exact Reach.step Reach.start ⟨(0, 1), by decide, by decide⟩ (by decide) (by decide)

theorem take_treasures_go_eq_foldl : ∀ (path : List MazeCell)
    (st : HarvestState) (cap : Int) (acc : List Treasure),
    take_treasures_go st path cap acc =
      ((path.foldl harvest_step (acc, cap, st)).1,
        (path.foldl harvest_step (acc, cap, st)).2.2) := by
  intro path
  induction path with
  | nil =>
      intro st cap acc
      rw [take_treasures_go, List.foldl_nil]
  | cons cell rest ih =>
      intro st cap acc
      rw [take_treasures_go, List.foldl_cons]
      cases htile : cell.tile with
      | terrain s =>
          rw [harvest_step, htile]
          exact ih st cap acc
      | spookyHollow i =>
          rw [harvest_step, htile]
          simp only
          cases hr : (spooky_get_optimal_treasure (st.spookyStores i) cap).1 with
          | some tr => exact ih _ _ _
          | none => exact ih _ _ _
      | mysticalHollow =>
          rw [harvest_step, htile]
          simp only
          cases hr : (mystical_get_optimal_treasure st.mystical cap).1 with
          | some tr => exact ih _ _ _
          | none => exact ih _ _ _

/-- C5: Maze.take_treasures equals the left fold of the specification step
over the cells in path order, starting from the empty collected list and
the given capacity: at each hollow-bearing cell the hollow's extraction is
called with the capacity remaining after all earlier cells, a returned
treasure is appended and its weight subtracted before the next cell, and
the final result is the accumulated list, or none when it is empty. -/
theorem take_treasures_eq_spec_fold (st : HarvestState) (path : List MazeCell)
    (backpack_capacity : Int) :
    take_treasures st path backpack_capacity =
      take_treasures_spec st path backpack_capacity := by
  rw [take_treasures, take_treasures_spec]
  rw [take_treasures_go_eq_foldl]

/-- C9 (code bug): the composition take_treasures(find_way_out()).
find_way_out returns Position values (maze.py line 284 appends
current_pos), but take_treasures declares path: List[MazeCell] and reads
cell.tile (lines 339 and 346); a Position has no tile attribute, so the
composition raises AttributeError on the first element.  Evaluated on a
one-by-two maze: the path is found, and the dynamic run of take_treasures
on it errors. -/
theorem find_way_out_take_treasures_type_mismatch :
    find_way_out (⟨1, 2, ⟨0, 0⟩,
        fun p => if p = ⟨0, 1⟩ then Tile.exit else Tile.blank⟩ : Maze) =
      some [⟨0, 0⟩, ⟨0, 1⟩] ∧
    take_treasures_dyn ⟨fun _ => BTree.leaf, ⟨[], []⟩⟩
      ([Position.mk 0 0, Position.mk 0 1].map PathElem.positionElem) 10 =
      Except.error () := by
  constructor
  · simp [find_way_out, all_positions, depth_first_search, dfs_children,
      get_available_positions, is_valid_position, in_bounds, exit_postions]
  · rw [List.map_cons, take_treasures_dyn, take_treasures_dyn_go]
